import Mathlib

/-!
Verification of the Markdown-to-Quill-Delta converter
(`src/functions/markdown_to_delta.py`, class `MarkdownToDelta`).

The converter is embedded shallowly: Python strings become `List Char`
(`Chars`) internally, regex patterns become bespoke matcher functions with
the exact leftmost / lazy / lookaround semantics of the patterns used by
the source, Python dicts for delta operations become the `Op` structure
(with `Option` distinguishing a missing `attributes` key from a present
empty mapping, exactly as the Python code distinguishes them).
-/

namespace MasonMd

abbrev Chars := List Char

/-- The whitespace class used by Python `str.strip()` and the regex class
`\s` on ASCII text: space, tab, newline, carriage return, vertical tab,
form feed. -/
def isPySpace (c : Char) : Bool :=
  decide (c = ' ' ∨ c = '\t' ∨ c = '\n' ∨ c = '\r' ∨ c = '\x0b' ∨ c = '\x0c')

/-- Python `str.strip()`: drop whitespace from both ends. -/
def pyStrip (s : Chars) : Chars :=
  ((s.dropWhile isPySpace).reverse.dropWhile isPySpace).reverse

/-- Character of `s` at index `i`, if in range (Python `s[i]`). -/
def at? (s : Chars) (i : Nat) : Option Char := s[i]?

/-- Python slice `s[i:j]`. -/
def slice (s : Chars) (i j : Nat) : Chars := (s.drop i).take (j - i)

/-- Smallest index `j ≥ lo` with `p j`, examining at most `fuel` indices. -/
def findFrom (p : Nat → Bool) : Nat → Nat → Option Nat
  | _, 0 => none
  | lo, fuel + 1 => if p lo then some lo else findFrom p (lo + 1) fuel

/-- One step list of `re.finditer`: repeatedly try the single-position
matcher `f`; on a match `(e, groups)` at `i` record it and resume at `e`,
otherwise advance one position. -/
def scanFrom (f : Nat → Option (Nat × α)) : Nat → Nat → List (Nat × Nat × α)
  | 0, _ => []
  | fuel + 1, i =>
    match f i with
    | some (e, a) => (i, e, a) :: scanFrom f fuel (max (i + 1) e)
    | none => scanFrom f fuel (i + 1)

/-- All non-overlapping matches of the single-position matcher `f`, scanned
left to right (Python `re.finditer`). -/
def finditer (f : Nat → Option (Nat × α)) (len : Nat) : List (Nat × Nat × α) :=
  scanFrom f (len + 1) 0

/-- The backtick character, `chr 96`. -/
def btick : Char := Char.ofNat 96

/-- Attribute values occurring in delta operations: booleans (`bold` etc.,
`blockquote`, `code-block: true`), strings (`link`, `alt`, `list`,
`code-block` language), integers (`header`, `indent`). -/
inductive AttrVal where
  | bool (b : Bool)
  | str (s : String)
  | nat (n : Nat)
deriving DecidableEq, Repr

/-- A Python attributes dict, in insertion order. -/
abbrev Attrs := List (String × AttrVal)

/-- Insert content: a text string, an image embed, or the divider embed. -/
inductive Insert where
  | text (s : String)
  | image (url : String)
  | divider
deriving DecidableEq, Repr

/-- One delta operation: `{"insert": ...}` with an optional
`"attributes"` key.  `attributes = some []` models a present-but-empty
attributes dict, distinct from an absent key (`none`). -/
structure Op where
  insert : Insert
  attributes : Option Attrs
deriving DecidableEq, Repr

/-- Build a text operation. -/
def mkText (cs : Chars) (attrs : Option Attrs) : Op := ⟨.text ⟨cs⟩, attrs⟩

/-- A newline operation. -/
def nlOp (attrs : Option Attrs) : Op := ⟨.text "\n", attrs⟩

/-- Matcher for the lazy paired-delimiter patterns `d(.+?)d` (with
`d ∈ {***, ___, **, __, ~~}`): `d` at `i`, then the earliest later
occurrence of `d` leaving at least one content character. -/
def pairMatchAt (d : Chars) (s : Chars) (i : Nat) : Option (Nat × Chars) :=
  if (s.drop i).take d.length = d then
    match findFrom (fun j => decide ((s.drop j).take d.length = d))
        (i + d.length + 1) s.length with
    | some j => some (j + d.length, slice s (i + d.length) j)
    | none => none
  else none

/-- Matcher for `(?<!m)m(?!m)(.+?)(?<!m)m(?!m)` (single-character emphasis
with lookaround guards), used with `m ∈ {*, _}`. -/
def italicMatchAt (mark : Char) (s : Chars) (i : Nat) : Option (Nat × Chars) :=
  if at? s i = some mark ∧ (i = 0 ∨ ¬ at? s (i - 1) = some mark) ∧
      ¬ at? s (i + 1) = some mark then
    match findFrom (fun j => decide (at? s j = some mark ∧
        ¬ at? s (j - 1) = some mark ∧ ¬ at? s (j + 1) = some mark))
        (i + 2) s.length with
    | some j => some (j + 1, slice s (i + 1) j)
    | none => none
  else none

/-- Matcher for inline code: backtick, one-or-more non-backticks, backtick. -/
def codeMatchAt (s : Chars) (i : Nat) : Option (Nat × Chars) :=
  if at? s i = some btick then
    match findFrom (fun j => decide (at? s j = some btick)) (i + 1) s.length with
    | some j => if i + 1 < j then some (j + 1, slice s (i + 1) j) else none
    | none => none
  else none

/-- Matcher for images `!\[([^\]]*)\]\(([^)]+)\)`: returns end position,
alt text (possibly empty) and url (non-empty). -/
def imageMatchAt (s : Chars) (i : Nat) : Option (Nat × Chars × Chars) :=
  if at? s i = some '!' ∧ at? s (i + 1) = some '[' then
    match findFrom (fun j => decide (at? s j = some ']')) (i + 2) s.length with
    | some j =>
      if at? s (j + 1) = some '(' then
        match findFrom (fun k => decide (at? s k = some ')')) (j + 2) s.length with
        | some k =>
          if j + 2 < k then some (k + 1, slice s (i + 2) j, slice s (j + 2) k)
          else none
        | none => none
      else none
    | none => none
  else none

/-- Matcher for links `\[([^\]]+)\]\(([^)]+)\)`: returns end position,
link text (non-empty) and url (non-empty). -/
def linkMatchAt (s : Chars) (i : Nat) : Option (Nat × Chars × Chars) :=
  if at? s i = some '[' then
    match findFrom (fun j => decide (at? s j = some ']')) (i + 1) s.length with
    | some j =>
      if i + 1 < j ∧ at? s (j + 1) = some '(' then
        match findFrom (fun k => decide (at? s k = some ')')) (j + 2) s.length with
        | some k =>
          if j + 2 < k then some (k + 1, slice s (i + 1) j, slice s (j + 2) k)
          else none
        | none => none
      else none
    | none => none
  else none

def biAttrs : Attrs := [("bold", .bool true), ("italic", .bool true)]
def boldA : Attrs := [("bold", .bool true)]
def italicA : Attrs := [("italic", .bool true)]
def strikeA : Attrs := [("strike", .bool true)]
def codeA : Attrs := [("code", .bool true)]

/-- Payload of a resolved top-level inline match. -/
inductive MatchPayload where
  | imageM (alt url : Chars)
  | linkM (txt url : Chars)
  | fmtM (content : Chars) (attrs : Attrs)
deriving DecidableEq, Repr

/-- A top-level inline match with its span. -/
structure RawMatch where
  start : Nat
  stop : Nat
  payload : MatchPayload
deriving DecidableEq, Repr

/-- All matches of one pattern, tagged with a payload constructor. -/
def matchesOf (f : Nat → Option (Nat × Chars)) (len : Nat)
    (mk : Chars → MatchPayload) : List RawMatch :=
  (finditer f len).map fun t => ⟨t.1, t.2.1, mk t.2.2⟩

/-- All candidate inline matches of every pattern of
`MarkdownToDelta.inline_patterns`, collected in the table's order. -/
def topMatches (s : Chars) : List RawMatch :=
  ((finditer (imageMatchAt s) s.length).map fun t =>
    ⟨t.1, t.2.1, .imageM t.2.2.1 t.2.2.2⟩)
  ++ ((finditer (linkMatchAt s) s.length).map fun t =>
    ⟨t.1, t.2.1, .linkM t.2.2.1 t.2.2.2⟩)
  ++ matchesOf (pairMatchAt "***".data s) s.length (fun g => .fmtM g biAttrs)
  ++ matchesOf (pairMatchAt "___".data s) s.length (fun g => .fmtM g biAttrs)
  ++ matchesOf (pairMatchAt "**".data s) s.length (fun g => .fmtM g boldA)
  ++ matchesOf (pairMatchAt "__".data s) s.length (fun g => .fmtM g boldA)
  ++ matchesOf (italicMatchAt '*' s) s.length (fun g => .fmtM g italicA)
  ++ matchesOf (italicMatchAt '_' s) s.length (fun g => .fmtM g italicA)
  ++ matchesOf (pairMatchAt "~~".data s) s.length (fun g => .fmtM g strikeA)
  ++ matchesOf (codeMatchAt s) s.length (fun g => .fmtM g codeA)

/-- The sort key of `_parse_inline`: ascending start, ties by descending
length. -/
def rmLt (a b : RawMatch) : Bool :=
  decide (a.start < b.start ∨
    (a.start = b.start ∧ b.stop - b.start < a.stop - a.start))

/-- Stable insertion into a sorted list: `x` goes after every element not
strictly greater. -/
def insOrd (lt : α → α → Bool) (x : α) : List α → List α
  | [] => [x]
  | y :: ys => if lt x y then x :: y :: ys else y :: insOrd lt x ys

/-- Stable sort (model of Python's stable `list.sort`). -/
def stableSort (lt : α → α → Bool) (l : List α) : List α :=
  l.foldl (fun acc x => insOrd lt x acc) []

/-- Drop overlapping matches: greedy left-to-right selection keeping a
match only when its start is at or past the end of the last kept match. -/
def filterOv (start stop : α → Nat) (ms : List α) : List α :=
  (ms.foldl
    (fun acc m => if acc.2 ≤ start m then (acc.1 ++ [m], stop m) else acc)
    (([] : List α), 0)).1

/-- A nested inline match inside `_parse_nested_inline`. -/
structure NMatch where
  start : Nat
  stop : Nat
  content : Chars
  attrs : Attrs
deriving DecidableEq, Repr

/-- Python `any(k in parent_attrs for k in attrs.keys())`. -/
def keysOverlap (attrs parent : Attrs) : Bool :=
  attrs.any fun kv => parent.any fun kv2 => kv.1 == kv2.1

/-- Matches of one nested pattern, skipped entirely when its attribute
keys already occur in the parent's attributes. -/
def nmOf (parent : Attrs) (f : Nat → Option (Nat × Chars)) (len : Nat)
    (attrs : Attrs) : List NMatch :=
  if keysOverlap attrs parent then []
  else (finditer f len).map fun t => ⟨t.1, t.2.1, t.2.2, attrs⟩

/-- All candidate nested matches (the reduced pattern table of
`_parse_nested_inline`), in table order. -/
def nestedMatches (parent : Attrs) (t : Chars) : List NMatch :=
  nmOf parent (pairMatchAt "**".data t) t.length boldA
  ++ nmOf parent (pairMatchAt "__".data t) t.length boldA
  ++ nmOf parent (italicMatchAt '*' t) t.length italicA
  ++ nmOf parent (italicMatchAt '_' t) t.length italicA
  ++ nmOf parent (pairMatchAt "~~".data t) t.length strikeA
  ++ nmOf parent (codeMatchAt t) t.length codeA

/-- Sort key for nested matches (same as `rmLt`). -/
def nmLt (a b : NMatch) : Bool :=
  decide (a.start < b.start ∨
    (a.start = b.start ∧ b.stop - b.start < a.stop - a.start))

/-- The plain-text segment emitted before a nested match (or before the
end of the text): the slice from `pos` to `upto`, when non-empty. -/
def nestedPre (t : Chars) (parent : Attrs) (pos upto : Nat) : List Op :=
  if pos < upto ∧ slice t pos upto ≠ [] then
    [mkText (slice t pos upto) (some parent)] else []

/-- One step of the nested segment-building fold. -/
def nestedStep (t : Chars) (parent : Attrs) (acc : List Op × Nat)
    (m : NMatch) : List Op × Nat :=
  (acc.1 ++ nestedPre t parent acc.2 m.start ++
    [mkText m.content (some (parent ++ m.attrs))], m.stop)

/-- `_parse_nested_inline`: resolve nested formatting inside `t`, merging
each inner attribute set into a copy of `parent`. -/
def parseNestedInline (t : Chars) (parent : Attrs) : List Op :=
  let ms := nestedMatches parent t
  if ms = [] then [mkText t (some parent)]
  else
    let filtered := filterOv NMatch.start NMatch.stop (stableSort nmLt ms)
    let acc := filtered.foldl (nestedStep t parent) ([], 0)
    let segs := acc.1 ++ nestedPre t parent acc.2 t.length
    if segs = [] then [mkText t (some parent)] else segs

/-- `_handle_format`: use the nested resolution when it splits the content
into more than one segment, otherwise a single attributed insert. -/
def handleFormat (content : Chars) (attrs : Attrs) : List Op :=
  let nested := parseNestedInline content attrs
  if 1 < nested.length then nested else [mkText content (some attrs)]

/-- Operations produced by one accepted top-level match (`_handle_image`,
`_handle_link`, or `_handle_format`). -/
def applyPayload (p : MatchPayload) : List Op :=
  match p with
  | .imageM alt url =>
    [⟨.image ⟨url⟩, some (if alt = [] then [] else [("alt", .str ⟨alt⟩)])⟩]
  | .linkM txt url => [mkText txt (some [("link", .str ⟨url⟩)])]
  | .fmtM content attrs => handleFormat content attrs

/-- The unattributed plain-text segment emitted between top-level inline
matches (or before the end of the line). -/
def inlinePre (t : Chars) (pos upto : Nat) : List Op :=
  if pos < upto ∧ slice t pos upto ≠ [] then
    [mkText (slice t pos upto) none] else []

/-- One step of the top-level segment-building fold. -/
def inlineStep (t : Chars) (acc : List Op × Nat) (m : RawMatch) :
    List Op × Nat :=
  (acc.1 ++ inlinePre t acc.2 m.start ++ applyPayload m.payload, m.stop)

/-- `_parse_inline`: resolve all inline formatting of one line of text. -/
def parseInline (t : Chars) : List Op :=
  if t = [] then []
  else
    let filtered := filterOv RawMatch.start RawMatch.stop
      (stableSort rmLt (topMatches t))
    let acc := filtered.foldl (inlineStep t) ([], 0)
    let segs := acc.1 ++ inlinePre t acc.2 t.length
    if segs = [] then [mkText t none] else segs

/-- The `\s+(.+)$` tail shared by the header/list/task patterns, with the
greedy-plus-backtracking semantics of the regex engine: at least one
whitespace character, then the rest; when the rest is all whitespace the
final whitespace character is surrendered to the `.+` group. -/
def wsThenContent (rest : Chars) : Option Chars :=
  let w := (rest.takeWhile isPySpace).length
  if w = 0 then none
  else if w < rest.length then some (rest.drop w)
  else if 2 ≤ rest.length then some (rest.drop (rest.length - 1))
  else none

/-- Header pattern `^(#{1,6})\s+(.+)$`: level and content. -/
def headerMatch (line : Chars) : Option (Nat × Chars) :=
  let n := (line.takeWhile (fun c => decide (c = '#'))).length
  if 1 ≤ n ∧ n ≤ 6 then (wsThenContent (line.drop n)).map ((n, ·)) else none

/-- Blockquote pattern `^>\s*(.*)$`: content after the marker and any
whitespace. -/
def blockquoteMatch (line : Chars) : Option Chars :=
  match line with
  | c :: rest => if c = '>' then some (rest.dropWhile isPySpace) else none
  | [] => none

/-- Unordered-list pattern `^(\s*)[-*+]\s+(.+)$`: leading-whitespace width
and content. -/
def unorderedMatch (line : Chars) : Option (Nat × Chars) :=
  let w := (line.takeWhile isPySpace).length
  match at? line w with
  | some c =>
    if c = '-' ∨ c = '*' ∨ c = '+' then
      (wsThenContent (line.drop (w + 1))).map ((w, ·))
    else none
  | none => none

/-- Ordered-list pattern `^(\s*)\d+\.\s+(.+)$`. -/
def orderedMatch (line : Chars) : Option (Nat × Chars) :=
  let w := (line.takeWhile isPySpace).length
  let d := ((line.drop w).takeWhile Char.isDigit).length
  if d = 0 then none
  else if at? line (w + d) = some '.' then
    (wsThenContent (line.drop (w + d + 1))).map ((w, ·))
  else none

/-- Checklist pattern `^[-*+]\s+\[([ xX])\]\s+(.+)$`: checked flag and
content.  (In the source this branch is tested after the unordered-list
branch.) -/
def taskMatch (line : Chars) : Option (Bool × Chars) :=
  match line with
  | c :: rest =>
    if c = '-' ∨ c = '*' ∨ c = '+' then
      let v := (rest.takeWhile isPySpace).length
      if 1 ≤ v ∧ at? rest v = some '[' ∧ at? rest (v + 2) = some ']' then
        match at? rest (v + 1) with
        | some m =>
          if m = ' ' ∨ m = 'x' ∨ m = 'X' then
            (wsThenContent (rest.drop (v + 3))).map ((decide (m = 'x' ∨ m = 'X'), ·))
          else none
        | none => none
      else none
    else none
  | [] => none

/-- The spaced horizontal-rule pattern `^c\s+c\s+c[\sc]*$`. -/
def spacedRule (c : Char) (s : Chars) : Bool :=
  match s with
  | c1 :: rest =>
    decide (c1 = c) &&
    (let w1 := (rest.takeWhile isPySpace).length
     decide (1 ≤ w1) &&
     match rest.drop w1 with
     | c2 :: rest2 =>
       decide (c2 = c) &&
       (let w2 := (rest2.takeWhile isPySpace).length
        decide (1 ≤ w2) &&
        match rest2.drop w2 with
        | c3 :: rest3 =>
          decide (c3 = c) && rest3.all (fun x => isPySpace x || decide (x = c))
        | [] => false)
     | [] => false)
  | [] => false

/-- `_is_horizontal_rule`. -/
def isHorizontalRule (line : Chars) : Bool :=
  let s := pyStrip line
  if s.length < 3 then false
  else
    s.all (fun c => decide (c = '-')) || s.all (fun c => decide (c = '*')) ||
    s.all (fun c => decide (c = '_')) ||
    spacedRule '-' s || spacedRule '*' s || spacedRule '_' s

/-- The list attributes dict: `{"list": kind}` plus `indent` when
positive. -/
def listAttrs (kind : String) (indent : Nat) : Attrs :=
  if 0 < indent then [("list", .str kind), ("indent", .nat indent)]
  else [("list", .str kind)]

/-- Operations emitted for one non-code-fence line of input, following the
source's branch order: horizontal rule, header, blockquote, unordered
list, ordered list, checklist, paragraph/blank. -/
def lineOps (line : Chars) : List Op :=
  if isHorizontalRule line then [⟨.divider, none⟩, nlOp none]
  else
    match headerMatch line with
    | some (n, content) => parseInline content ++ [nlOp (some [("header", .nat n)])]
    | none =>
      match blockquoteMatch line with
      | some content =>
        (if content ≠ [] then parseInline content else [mkText [] none]) ++
          [nlOp (some [("blockquote", .bool true)])]
      | none =>
        match unorderedMatch line with
        | some (w, content) =>
          parseInline content ++ [nlOp (some (listAttrs "bullet" (w / 2)))]
        | none =>
          match orderedMatch line with
          | some (w, content) =>
            parseInline content ++ [nlOp (some (listAttrs "ordered" (w / 2)))]
          | none =>
            match taskMatch line with
            | some (checked, content) =>
              parseInline content ++
                [nlOp (some [("list",
                  .str (if checked then "checked" else "unchecked"))])]
            | none =>
              (if pyStrip line ≠ [] then parseInline line else []) ++ [nlOp none]

/-- Collect the raw content lines of a fenced code block: everything up to
the first line that strips to exactly three backticks (consumed), or all
remaining lines. -/
def collectCode : List Chars → List Chars × List Chars
  | [] => ([], [])
  | l :: ls =>
    if pyStrip l = "```".data then ([], ls)
    else (l :: (collectCode ls).1, (collectCode ls).2)

/-- The `code-block` attribute: the language name, or `true` when none. -/
def cbAttr (language : Chars) : Attrs :=
  [("code-block", if language = [] then .bool true else .str ⟨language⟩)]

/-- The per-line emission loop of `_handle_code_block`: each non-empty
line becomes a plain insert; every line except a trailing empty one is
followed by a `code-block` newline. -/
def emitCodeLines (language : Chars) : List Chars → List Op
  | [] => []
  | [l] => if l ≠ [] then [mkText l none, nlOp (some (cbAttr language))] else []
  | l :: l2 :: rest =>
    (if l ≠ [] then [mkText l none] else []) ++ [nlOp (some (cbAttr language))] ++
      emitCodeLines language (l2 :: rest)

/-- Python `'\n'.join`. -/
def joinNl (ls : List Chars) : Chars := List.intercalate ['\n'] ls

/-- Language extraction from the opening fence line: the stripped line
after the three backticks, stripped again; empty when absent. -/
def fenceLanguage (firstLine : Chars) : Chars :=
  let stripped := pyStrip firstLine
  if 3 < stripped.length then pyStrip (stripped.drop 3) else []

/-- `_handle_code_block`: operations emitted for the fenced block opened
by `firstLine`, and the lines remaining after the block. -/
def handleCodeBlock (firstLine : Chars) (rest : List Chars) : List Op × List Chars :=
  let language := fenceLanguage firstLine
  let codeLines := (collectCode rest).1
  let ops :=
    if joinNl codeLines = [] then []
    else
      emitCodeLines language codeLines ++
        (if codeLines ≠ [] then [nlOp (some (cbAttr language))] else [])
  (ops, (collectCode rest).2)

/-- A line whose stripped form starts with three backticks opens a fenced
code block. -/
def isFence (line : Chars) : Bool := decide ((pyStrip line).take 3 = "```".data)

/-- The block-scanner loop of `convert`, with explicit fuel (the fuel is
always sufficient at the call site since each step consumes at least one
line; fuel makes the recursion structural). -/
def scanLinesF : Nat → List Chars → List Op
  | 0, _ => []
  | _ + 1, [] => []
  | fuel + 1, line :: rest =>
    if isFence line then
      (handleCodeBlock line rest).1 ++
        scanLinesF fuel (handleCodeBlock line rest).2
    else
      lineOps line ++ scanLinesF fuel rest

/-- The block-scanner loop of `convert`. -/
def scanLines (lines : List Chars) : List Op :=
  scanLinesF (lines.length + 1) lines

/-- `insert == "" and "attributes" not in op`: the operations dropped by
the first cleanup pass. -/
def isEmptyPlain (op : Op) : Bool :=
  match op with
  | ⟨.text s, none⟩ => decide (s = "")
  | _ => false

/-- First pass of `_cleanup_ops`: remove empty unattributed inserts. -/
def dropEmptyOps (ops : List Op) : List Op :=
  ops.filter fun op => ! isEmptyPlain op

/-- Merging step of the second cleanup pass: `a` is the last already
merged operation (Python `merged[-1]`); a following plain string insert is
folded into it when `a` is itself a plain string insert. -/
def mergeGo (a : Op) : List Op → List Op
  | [] => [a]
  | b :: rest =>
    match a, b with
    | ⟨.text sa, none⟩, ⟨.text sb, none⟩ => mergeGo ⟨.text (sa ++ sb), none⟩ rest
    | a, b => a :: mergeGo b rest

/-- Second pass of `_cleanup_ops`: merge consecutive plain (string,
attribute-less) inserts. -/
def mergePlainOps : List Op → List Op
  | [] => []
  | a :: rest => mergeGo a rest

/-- `_cleanup_ops`. -/
def cleanupOps (ops : List Op) : List Op :=
  if ops = [] then ops else mergePlainOps (dropEmptyOps ops)

/-- Python `str.split('\n')`. -/
def splitNl : Chars → List Chars
  | [] => [[]]
  | c :: cs =>
    if c = '\n' then [] :: splitNl cs
    else
      match splitNl cs with
      | l :: ls => (c :: l) :: ls
      | [] => [[c]]

/-- `MarkdownToDelta.convert`: the full conversion; the returned list is
the `ops` entry of the result dict. -/
def convert (markdown : String) : List Op :=
  if markdown = "" then []
  else cleanupOps (scanLines (splitNl markdown.data))

/-- Number of newline characters in an operation's text content (embeds
count zero). -/
def nlCountOp (op : Op) : Nat :=
  match op.insert with
  | .text s => (s.data.filter (fun c => decide (c = '\n'))).length
  | _ => 0

/-- Total number of newline characters across all text inserts. -/
def nlCount (ops : List Op) : Nat := (ops.map nlCountOp).sum

/-- Whether an operation's insert content is a string ending with a
newline (the shape the spec calls a block terminator). -/
def endsWithNl (op : Op) : Bool :=
  match op.insert with
  | .text s => decide (s.data.getLast? = some '\n')
  | _ => false

/-- Number of operations whose insert content ends with a newline. -/
def blockTerminatorCount (ops : List Op) : Nat := (ops.filter endsWithNl).length

/-- Number of operations carrying an `attributes` key. -/
def attributedCount (ops : List Op) : Nat :=
  (ops.filter (fun op => op.attributes.isSome)).length

/-- Number of operations without an `attributes` key (inside a code block
these are exactly the plain line inserts). -/
def unattributedCount (ops : List Op) : Nat :=
  (ops.filter (fun op => ! op.attributes.isSome)).length

/-- Whether the final collected code line is non-empty. -/
def lastNonempty : List Chars → Bool
  | [] => false
  | [l] => decide (l ≠ [])
  | _ :: l2 :: rest => lastNonempty (l2 :: rest)

/-- Whether an operation's insert is an image embed. -/
def isImageInsert (op : Op) : Bool :=
  match op.insert with
  | .image _ => true
  | _ => false

/-- The keys of an attributes dict. -/
def attrKeys (a : Attrs) : List String := a.map Prod.fst

/-- Characters that can trigger some block or inline pattern: the
block-marker and inline-marker characters together with digits (ordered
lists) and the newline. -/
def specialChar (c : Char) : Bool :=
  decide (c = '#' ∨ c = '>' ∨ c = '-' ∨ c = '*' ∨ c = '+' ∨ c = btick ∨
    c = '_' ∨ c = '~' ∨ c = '[' ∨ c = ']' ∨ c = '(' ∨ c = ')' ∨ c = '!' ∨
    c = '\n') || c.isDigit

/-- The attribute well-formedness invariant: when the `attributes` key is
present its keys are distinct, and it is empty only on image embeds. -/
def GoodOp (op : Op) : Prop :=
  match op.attributes with
  | none => True
  | some a => (attrKeys a).Nodup ∧ (a = [] → isImageInsert op = true)

/-- A plain operation: a string insert with no `attributes` key (the only
shape the merging pass combines). -/
def isPlainStr (op : Op) : Bool :=
  match op with
  | ⟨.text _, none⟩ => true
  | _ => false

/-- No two adjacent operations are both plain: the state the merging pass
establishes. -/
def nonAdjPlain (a b : Op) : Prop :=
  ¬ (isPlainStr a = true ∧ isPlainStr b = true)

/-- Claim C1, behavior at the failing input: the unordered-list branch is
tested before the checklist branch and matches every checklist line, so
`"- [x] done\n- [ ] todo"` yields plain `list: "bullet"` newlines with the
literal markers left in the text inserts, and no `checked`/`unchecked`
attribute appears anywhere in the output. -/
theorem C1_checklist_degrades_to_bullet :
    convert "- [x] done\n- [ ] todo" =
      [⟨.text "[x] done", none⟩,
       ⟨.text "\n", some [("list", .str "bullet")]⟩,
       ⟨.text "[ ] todo", none⟩,
       ⟨.text "\n", some [("list", .str "bullet")]⟩] ∧
    ((convert "- [x] done\n- [ ] todo").all fun op =>
      decide (op.attributes ≠ some [("list", .str "checked")] ∧
              op.attributes ≠ some [("list", .str "unchecked")])) = true := by
  exact ⟨by decide, by decide⟩

/-- Claim C2, counterexample: for the plain paragraph `"hello"` the text
insert and the terminating newline are merged by the cleanup pass into a
single operation, so the claimed two-operation output is wrong. -/
theorem C2_counterexample :
    convert "hello" = [⟨.text "hello\n", none⟩] ∧
    convert "hello" ≠ [⟨.text "hello", none⟩, ⟨.text "\n", none⟩] := by
  exact ⟨by decide, by decide⟩

/-- Claim C3, counterexample: for `"a\nb"` (two input lines) the cleanup
pass merges everything into one plain insert, so only one operation's
content ends with a newline while the input has two lines. -/
theorem C3_counterexample :
    convert "a\nb" = [⟨.text "a\nb\n", none⟩] ∧
    blockTerminatorCount (convert "a\nb") = 1 ∧
    (splitNl "a\nb".data).length = 2 := by
  exact ⟨by decide, by decide, by decide⟩

/-- Claim C4, counterexample: on `"**bold *and italic***"` no operation at
all has content `"and italic"` — the bold pattern consumes up to the first
two of the three trailing asterisks and the lookaround guards then reject
the inner italic span, so the nested bold+italic insert never appears. -/
theorem C4_counterexample :
    ((convert "**bold *and italic***").all fun op =>
      decide (op.insert ≠ .text "and italic")) = true := by
  decide

/-- Claim C4, amended: `convert "**bold *and italic***"` yields a single
bold insert containing the literal text `bold *and italic` (the inner
asterisk included) followed by a plain `*\n` insert; no bold+italic
nesting is resolved. -/
theorem C4_amended_behavior :
    convert "**bold *and italic***" =
      [⟨.text "bold *and italic", some [("bold", .bool true)]⟩,
       ⟨.text "*\n", none⟩] := by
  decide

/-- Claim C5, counterexample: an image with empty alt text produces an
operation whose `attributes` key is present but maps to the empty dict. -/
theorem C5_counterexample :
    convert "![](u)" = [⟨.image "u", some []⟩, ⟨.text "\n", none⟩] := by
  decide

/-- Claim C6, counterexample: inside an inline code span the nested pass
still resolves bold/italic/strike, so `code` co-occurs with `bold` on a
single insert. -/
theorem C6_counterexample :
    (⟨.text "b", some [("code", .bool true), ("bold", .bool true)]⟩ : Op)
      ∈ convert "`a **b** c`" := by
  decide

/-- Claim C7, counterexample: a fenced block with the single collected
line `x` emits that line followed by two `code-block` newlines (the
per-line newline plus the block's final newline), not exactly one. -/
theorem C7_counterexample :
    convert "```\nx\n```" =
      [⟨.text "x", none⟩, ⟨.text "\n", some [("code-block", .bool true)]⟩,
       ⟨.text "\n", some [("code-block", .bool true)]⟩] ∧
    convert "```\nx\n```" ≠
      [⟨.text "x", none⟩, ⟨.text "\n", some [("code-block", .bool true)]⟩] := by
  exact ⟨by decide, by decide⟩

/-- Claim C9: converting the empty string yields an empty operation
sequence, with no trailing newline operation. -/
theorem C9_empty_input : convert "" = [] := by decide

theorem mem_of_at? {s : Chars} {i : Nat} {c : Char} (h : at? s i = some c) :
    c ∈ s :=
  List.getElem?_mem h

theorem mem_of_slice {s : Chars} {i j : Nat} {c : Char} (h : c ∈ slice s i j) :
    c ∈ s :=
  List.mem_of_mem_drop (List.mem_of_mem_take h)

theorem slice_full (s : Chars) : slice s 0 s.length = s := by
  simp [slice]

theorem mem_pyStrip {s : Chars} {c : Char} (h : c ∈ pyStrip s) : c ∈ s := by
  unfold pyStrip at h
  have h1 := (List.dropWhile_sublist _).subset (List.mem_reverse.mp h)
  exact (List.dropWhile_sublist _).subset (List.mem_reverse.mp h1)

theorem pyStrip_ne_nil {s : Chars} (h : ∃ c ∈ s, isPySpace c = false) :
    pyStrip s ≠ [] := by
  obtain ⟨c, hc, hcs⟩ := h
  intro hnil
  unfold pyStrip at hnil
  rw [List.reverse_eq_nil_iff, List.dropWhile_eq_nil_iff] at hnil
  have h2 : ∀ x ∈ s.dropWhile isPySpace, isPySpace x = true := by
    intro x hx
    exact hnil x (List.mem_reverse.mpr hx)
  have h3 : ∀ x ∈ s, isPySpace x = true := by
    intro x hx
    rw [← List.takeWhile_append_dropWhile isPySpace s] at hx
    rcases List.mem_append.mp hx with h4 | h4
    · exact List.mem_takeWhile_imp h4
    · exact h2 x h4
  rw [h3 c hc] at hcs
  cases hcs

theorem findFrom_eq_none {p : Nat → Bool} (h : ∀ j, p j = false) :
    ∀ fuel lo, findFrom p lo fuel = none := by
  intro fuel
  induction fuel with
  | zero => intro lo; rfl
  | succ f ih => intro lo; simp [findFrom, h lo, ih lo.succ]

theorem scanFrom_eq_nil {f : Nat → Option (Nat × α)} (h : ∀ i, f i = none) :
    ∀ fuel i, scanFrom f fuel i = [] := by
  intro fuel
  induction fuel with
  | zero => intro i; rfl
  | succ n ih => intro i; simp [scanFrom, h i, ih]

theorem finditer_eq_nil {f : Nat → Option (Nat × α)} (h : ∀ i, f i = none)
    (len : Nat) : finditer f len = [] :=
  scanFrom_eq_nil h _ _

theorem mem_scanFrom {f : Nat → Option (Nat × α)} :
    ∀ {fuel i : Nat} {t : Nat × Nat × α}, t ∈ scanFrom f fuel i →
      f t.1 = some t.2 := by
  intro fuel
  induction fuel with
  | zero => intro i t h; cases h
  | succ n ih =>
    intro i t h
    unfold scanFrom at h
    revert h
    cases hf : f i with
    | some ea =>
      intro h
      rcases List.mem_cons.mp h with h1 | h1
      · subst h1; exact hf
      · exact ih h1
    | none => intro h; exact ih h

theorem mem_finditer {f : Nat → Option (Nat × α)} {len : Nat}
    {t : Nat × Nat × α} (h : t ∈ finditer f len) : f t.1 = some t.2 :=
  mem_scanFrom h

theorem collectCode_snd_length_le (ls : List Chars) :
    (collectCode ls).2.length ≤ ls.length := by
  induction ls with
  | nil => simp [collectCode]
  | cons l ls ih =>
    simp only [collectCode]
    split
    · simp
    · simpa using Nat.le_succ_of_le ih

theorem scanLinesF_fuel_eq :
    ∀ (fuel fuel' : Nat) (lines : List Chars), lines.length < fuel →
      lines.length < fuel' → scanLinesF fuel lines = scanLinesF fuel' lines := by
  intro fuel
  induction fuel with
  | zero => intro fuel' lines h; omega
  | succ f ih =>
    intro fuel' lines h h'
    cases lines with
    | nil =>
      cases fuel' with
      | zero => omega
      | succ f' => rfl
    | cons line rest =>
      cases fuel' with
      | zero => omega
      | succ f' =>
        simp only [List.length_cons, Nat.succ_lt_succ_iff] at h h'
        simp only [scanLinesF]
        split
        · have hlen : (handleCodeBlock line rest).2.length ≤ rest.length :=
            collectCode_snd_length_le rest
          rw [ih f' _ (by omega) (by omega)]
        · rw [ih f' _ h h']

theorem scanLines_nil : scanLines [] = [] := rfl

theorem scanLines_fence {line : Chars} {rest : List Chars}
    (h : isFence line = true) :
    scanLines (line :: rest) =
      (handleCodeBlock line rest).1 ++ scanLines (handleCodeBlock line rest).2 := by
  unfold scanLines
  have hlen : (handleCodeBlock line rest).2.length ≤ rest.length :=
    collectCode_snd_length_le rest
  simp only [List.length_cons, scanLinesF]
  rw [if_pos h]
  exact congrArg (fun x => (handleCodeBlock line rest).1 ++ x)
    (scanLinesF_fuel_eq (rest.length + 1)
      ((handleCodeBlock line rest).2.length + 1) (handleCodeBlock line rest).2
      (Nat.lt_succ_of_le hlen) (Nat.lt_succ_self _))

theorem scanLines_cons {line : Chars} {rest : List Chars}
    (h : isFence line = false) :
    scanLines (line :: rest) = lineOps line ++ scanLines rest := by
  unfold scanLines
  simp only [List.length_cons, scanLinesF]
  rw [if_neg (by simp [h])]

theorem isPlainStr_iff {op : Op} :
    isPlainStr op = true ↔ ∃ s, op = ⟨.text s, none⟩ := by
  obtain ⟨ins, attrs⟩ := op
  cases ins <;> cases attrs <;> simp [isPlainStr]

theorem mergeGo_cons_of_not_both {a b : Op}
    (h : ¬ (isPlainStr a = true ∧ isPlainStr b = true)) (rest : List Op) :
    mergeGo a (b :: rest) = a :: mergeGo b rest := by
  obtain ⟨ia, aa⟩ := a
  obtain ⟨ib, ab⟩ := b
  cases ia <;> cases ib <;> cases aa <;> cases ab <;>
    first
      | rfl
      | (exfalso; exact h ⟨rfl, rfl⟩)

theorem mergeGo_head_of_not_plain {b : Op} (hb : isPlainStr b = false)
    (rest : List Op) : (mergeGo b rest).head? = some b := by
  cases rest with
  | nil => rfl
  | cons d rest2 =>
    rw [mergeGo_cons_of_not_both (fun hc => by simp [hb] at hc) rest2]
    rfl

theorem mergeGo_chain :
    ∀ (l : List Op) (a : Op), List.Chain' nonAdjPlain (mergeGo a l) := by
  intro l
  induction l with
  | nil => intro a; simp [mergeGo]
  | cons b rest ih =>
    intro a
    by_cases hab : isPlainStr a = true ∧ isPlainStr b = true
    · obtain ⟨sa, ha2⟩ := isPlainStr_iff.mp hab.1
      obtain ⟨sb, hb2⟩ := isPlainStr_iff.mp hab.2
      subst ha2; subst hb2
      exact ih (⟨.text (sa ++ sb), none⟩ : Op)
    · rw [mergeGo_cons_of_not_both hab]
      rw [List.chain'_cons']
      refine ⟨?_, ih b⟩
      intro y hy
      by_cases hb : isPlainStr b = true
      · exact fun hc => hab ⟨hc.1, hb⟩
      · rw [Bool.not_eq_true] at hb
        rw [mergeGo_head_of_not_plain hb] at hy
        simp at hy
        subst hy
        exact fun hc => by rw [hc.2] at hb; cases hb

theorem mergePlain_chain (l : List Op) :
    List.Chain' nonAdjPlain (mergePlainOps l) := by
  cases l with
  | nil => simp [mergePlainOps]
  | cons a rest => exact mergeGo_chain rest a

theorem mergeGo_of_chain :
    ∀ (rest : List Op) (a : Op), List.Chain' nonAdjPlain (a :: rest) →
      mergeGo a rest = a :: rest := by
  intro rest
  induction rest with
  | nil => intro a h; rfl
  | cons b rest2 ih =>
    intro a h
    rw [List.chain'_cons] at h
    rw [mergeGo_cons_of_not_both h.1, ih b h.2]

theorem mergePlain_of_chain {l : List Op}
    (h : List.Chain' nonAdjPlain l) : mergePlainOps l = l := by
  cases l with
  | nil => rfl
  | cons a rest => exact mergeGo_of_chain rest a h

theorem mergeGo_all {Q : Op → Prop}
    (hQ : ∀ sa sb : String, Q ⟨.text sa, none⟩ → Q ⟨.text sb, none⟩ →
      Q ⟨.text (sa ++ sb), none⟩) :
    ∀ (l : List Op) (a : Op), Q a → (∀ op ∈ l, Q op) →
      ∀ op ∈ mergeGo a l, Q op := by
  intro l
  induction l with
  | nil =>
    intro a ha _ op hop
    simp [mergeGo] at hop
    subst hop; exact ha
  | cons b rest ih =>
    intro a ha hl op hop
    by_cases hab : isPlainStr a = true ∧ isPlainStr b = true
    · obtain ⟨sa, ha2⟩ := isPlainStr_iff.mp hab.1
      obtain ⟨sb, hb2⟩ := isPlainStr_iff.mp hab.2
      subst ha2; subst hb2
      refine ih _ (hQ sa sb ha (hl _ (List.mem_cons_self _ _)))
        (fun x hx => hl x (List.mem_cons_of_mem _ hx)) op ?_
      exact hop
    · rw [mergeGo_cons_of_not_both hab] at hop
      rcases List.mem_cons.mp hop with h1 | h1
      · subst h1; exact ha
      · exact ih b (hl b (List.mem_cons_self _ _))
          (fun x hx => hl x (List.mem_cons_of_mem _ hx)) op h1

theorem mergePlain_all {Q : Op → Prop}
    (hQ : ∀ sa sb : String, Q ⟨.text sa, none⟩ → Q ⟨.text sb, none⟩ →
      Q ⟨.text (sa ++ sb), none⟩)
    {l : List Op} (hl : ∀ op ∈ l, Q op) :
    ∀ op ∈ mergePlainOps l, Q op := by
  cases l with
  | nil => intro op hop; cases hop
  | cons a rest =>
    exact mergeGo_all hQ rest a (hl a (List.mem_cons_self _ _))
      (fun x hx => hl x (List.mem_cons_of_mem _ hx))

theorem notEmptyPlain_merge (sa sb : String)
    (ha : isEmptyPlain ⟨.text sa, none⟩ = false)
    (_ : isEmptyPlain ⟨.text sb, none⟩ = false) :
    isEmptyPlain ⟨.text (sa ++ sb), none⟩ = false := by
  simp [isEmptyPlain] at *
  intro h
  apply ha
  have h2 := congrArg String.data h
  rw [String.data_append] at h2
  rcases List.append_eq_nil.mp (by simpa using h2) with ⟨h1, _⟩
  exact String.ext (by simpa using h1)

/-- Claim C8: the normalizer (`_cleanup_ops`) is idempotent — applying it
twice to any operation sequence gives the same result as applying it
once. -/
theorem C8_normalizer_idempotent (ops : List Op) :
    cleanupOps (cleanupOps ops) = cleanupOps ops := by
  by_cases h0 : ops = []
  · subst h0; rfl
  · have h1 : cleanupOps ops = mergePlainOps (dropEmptyOps ops) := if_neg h0
    rw [h1]
    by_cases hr0 : mergePlainOps (dropEmptyOps ops) = []
    · rw [hr0]; rfl
    · have h2 : cleanupOps (mergePlainOps (dropEmptyOps ops)) =
          mergePlainOps (dropEmptyOps (mergePlainOps (dropEmptyOps ops))) :=
        if_neg hr0
      rw [h2]
      have hall : ∀ op ∈ mergePlainOps (dropEmptyOps ops),
          isEmptyPlain op = false := by
        apply mergePlain_all (Q := fun op => isEmptyPlain op = false)
          notEmptyPlain_merge
        intro op hop
        have h3 := List.of_mem_filter hop
        simpa using h3
      have hdrop : dropEmptyOps (mergePlainOps (dropEmptyOps ops)) =
          mergePlainOps (dropEmptyOps ops) := by
        rw [dropEmptyOps, List.filter_eq_self]
        intro a ha
        simp [hall a ha]
      rw [hdrop, mergePlain_of_chain (mergePlain_chain _)]

theorem splitNl_no_newline {cs : Chars} (h : '\n' ∉ cs) : splitNl cs = [cs] := by
  induction cs with
  | nil => rfl
  | cons c cs ih =>
    rw [splitNl]
    rw [if_neg (fun hc : c = '\n' => h (by rw [← hc]; exact List.mem_cons_self c cs))]
    rw [ih (fun hm => h (List.mem_cons_of_mem _ hm))]

theorem dropWhile_append_of_all {p : Char → Bool} {xs : Chars} (ys : Chars)
    (h : ∀ c ∈ xs, p c = true) :
    List.dropWhile p (xs ++ ys) = List.dropWhile p ys := by
  induction xs with
  | nil => rfl
  | cons x xs ih =>
    rw [List.cons_append, List.dropWhile_cons]
    rw [if_pos (h x (List.mem_cons_self _ _))]
    exact ih (fun c hc => h c (List.mem_cons_of_mem _ hc))

theorem headerMatch_none {line : Chars} (h : line.head? ≠ some '#') :
    headerMatch line = none := by
  have h1 : (line.takeWhile (fun c => decide (c = '#'))).length = 0 := by
    cases line with
    | nil => rfl
    | cons c cs =>
      rw [List.takeWhile_cons]
      have hc : ¬ c = '#' := fun hc => h (by subst hc; rfl)
      simp [hc]
  simp [headerMatch, h1]

theorem blockquoteMatch_none {line : Chars} (h : line.head? ≠ some '>') :
    blockquoteMatch line = none := by
  cases line with
  | nil => rfl
  | cons c cs =>
    have hc : ¬ c = '>' := fun hc => h (by subst hc; rfl)
    simp [blockquoteMatch, hc]

theorem unorderedMatch_none {line : Chars}
    (h : ∀ c ∈ line, ¬ (c = '-' ∨ c = '*' ∨ c = '+')) :
    unorderedMatch line = none := by
  cases hat : at? line ((line.takeWhile isPySpace).length) with
  | none => simp only [unorderedMatch, hat]
  | some c =>
    have hc := h c (mem_of_at? hat)
    simp only [unorderedMatch, hat]
    simp [hc]

theorem orderedMatch_none {line : Chars}
    (h : ∀ c ∈ line, c.isDigit = false) :
    orderedMatch line = none := by
  unfold orderedMatch
  have h1 : ((line.drop ((line.takeWhile isPySpace).length)).takeWhile
      Char.isDigit).length = 0 := by
    cases hd : line.drop ((line.takeWhile isPySpace).length) with
    | nil => rfl
    | cons c cs =>
      have hcmem : c ∈ line :=
        List.mem_of_mem_drop (hd ▸ List.mem_cons_self c cs)
      rw [List.takeWhile_cons]
      simp [h c hcmem]
  simp [h1]

theorem taskMatch_none {line : Chars}
    (h : ∀ c, line.head? = some c → ¬ (c = '-' ∨ c = '*' ∨ c = '+')) :
    taskMatch line = none := by
  cases line with
  | nil => rfl
  | cons c cs =>
    have hc := h c rfl
    simp [taskMatch, hc]

theorem isHorizontalRule_false {line : Chars}
    (h : ∀ c ∈ pyStrip line, ¬ (c = '-' ∨ c = '*' ∨ c = '_')) :
    isHorizontalRule line = false := by
  unfold isHorizontalRule
  by_cases h3 : (pyStrip line).length < 3
  · simp [h3]
  · rw [if_neg h3]
    cases hs : pyStrip line with
    | nil => rw [hs] at h3; simp at h3
    | cons c0 cs =>
      have hc0 := h c0 (hs ▸ List.mem_cons_self c0 cs)
      push_neg at hc0
      obtain ⟨hd1, hd2, hd3⟩ := hc0
      simp [spacedRule, List.all_cons, hd1, hd2, hd3]

theorem isFence_false {line : Chars}
    (h : ∀ c ∈ pyStrip line, ¬ c = btick) : isFence line = false := by
  unfold isFence
  cases hs : pyStrip line with
  | nil => rfl
  | cons c0 cs =>
    have hc0 := h c0 (hs ▸ List.mem_cons_self c0 cs)
    have hb : "```".data = [btick, btick, btick] := rfl
    rw [List.take_succ_cons, hb]
    exact decide_eq_false (fun he => hc0 (Option.some.inj (congrArg List.head? he)))

theorem lineOps_paragraph {line : Chars}
    (hHR : isHorizontalRule line = false) (hH : headerMatch line = none)
    (hB : blockquoteMatch line = none) (hU : unorderedMatch line = none)
    (hO : orderedMatch line = none) (hT : taskMatch line = none)
    (hNE : pyStrip line ≠ []) :
    lineOps line = parseInline line ++ [nlOp none] := by
  simp [lineOps, hHR, hH, hB, hU, hO, hT, hNE]

theorem lineOps_blockquote_empty {line : Chars}
    (hHR : isHorizontalRule line = false) (hH : headerMatch line = none)
    (hB : blockquoteMatch line = some []) :
    lineOps line = [mkText [] none, nlOp (some [("blockquote", .bool true)])] := by
  simp [lineOps, hHR, hH, hB]

theorem isPySpace_not_marker {c : Char} (h : isPySpace c = true) :
    ¬ (c = '-' ∨ c = '*' ∨ c = '+' ∨ c = '_' ∨ c = '#' ∨ c = btick ∨
       c.isDigit = true) := by
  simp only [isPySpace, decide_eq_true_eq] at h
  rcases h with rfl | rfl | rfl | rfl | rfl | rfl <;> decide

theorem pyStrip_bq {ws : Chars} (h : ∀ c ∈ ws, isPySpace c = true) :
    pyStrip ('>' :: ws) = ['>'] := by
  unfold pyStrip
  have h1 : List.dropWhile isPySpace ('>' :: ws) = '>' :: ws := by
    rw [List.dropWhile_cons]
    simp [isPySpace]
  rw [h1]
  have h2 : ('>' :: ws).reverse = ws.reverse ++ ['>'] := by simp
  rw [h2, dropWhile_append_of_all ['>'] (fun c hc => h c (List.mem_reverse.mp hc))]
  rfl

/-- Claim C10: a line that is just the blockquote marker `>`, possibly
followed by whitespace, contributes exactly one operation — the
blockquote-tagged newline; the empty text insert emitted by the blockquote
branch is removed by the cleanup pass. -/
theorem C10_blockquote_marker_only (ws : Chars)
    (h : ∀ c ∈ ws, isPySpace c = true ∧ c ≠ '\n') :
    convert (String.mk ('>' :: ws)) =
      [⟨.text "\n", some [("blockquote", .bool true)]⟩] := by
  have hsp : ∀ c ∈ ws, isPySpace c = true := fun c hc => (h c hc).1
  have hnn : '\n' ∉ ('>' :: ws) := by
    intro hm
    rcases List.mem_cons.mp hm with h1 | h1
    · cases h1
    · exact (h _ h1).2 rfl
  have hne : String.mk ('>' :: ws) ≠ "" := by
    intro he
    have := congrArg String.data he
    simp at this
  rw [convert, if_neg hne]
  have hdata : (String.mk ('>' :: ws)).data = '>' :: ws := rfl
  rw [hdata, splitNl_no_newline hnn]
  have hstrip := pyStrip_bq hsp
  have hfence : isFence ('>' :: ws) = false := by
    apply isFence_false
    rw [hstrip]
    intro c hc
    simp at hc
    subst hc
    decide
  rw [scanLines_cons hfence, scanLines_nil, List.append_nil]
  have hHR : isHorizontalRule ('>' :: ws) = false := by
    apply isHorizontalRule_false
    rw [hstrip]
    intro c hc
    simp at hc
    subst hc
    decide
  have hH : headerMatch ('>' :: ws) = none := by
    apply headerMatch_none
    simp
  have hB : blockquoteMatch ('>' :: ws) = some [] := by
    have hdw : List.dropWhile isPySpace ws = [] :=
      List.dropWhile_eq_nil_iff.mpr hsp
    simp [blockquoteMatch, hdw]
  rw [lineOps_blockquote_empty hHR hH hB]
  decide

/-- Claim C10 witness: the concrete line `"> "`. -/
theorem C10_witness :
    convert "> " = [⟨.text "\n", some [("blockquote", .bool true)]⟩] :=
  C10_blockquote_marker_only [' '] (by decide)

theorem mem_of_head? {l : Chars} {c : Char} (h : l.head? = some c) : c ∈ l := by
  cases l with
  | nil => cases h
  | cons a as =>
    simp at h
    rw [h]
    exact List.mem_cons_self _ _

theorem pairMatchAt_none {d s : Chars} (i : Nat) {d0 : Char}
    (hd : d.head? = some d0) (h : d0 ∉ s) : pairMatchAt d s i = none := by
  have hne : ¬ (s.drop i).take d.length = d := by
    intro he
    apply h
    have hm : d0 ∈ (s.drop i).take d.length := by
      rw [he]; exact mem_of_head? hd
    exact List.mem_of_mem_drop (List.mem_of_mem_take hm)
  rw [pairMatchAt, if_neg hne]

theorem italicMatchAt_none {mark : Char} {s : Chars} (i : Nat)
    (h : mark ∉ s) : italicMatchAt mark s i = none := by
  have hne : ¬ (at? s i = some mark ∧ (i = 0 ∨ ¬ at? s (i - 1) = some mark) ∧
      ¬ at? s (i + 1) = some mark) := fun hc => h (mem_of_at? hc.1)
  rw [italicMatchAt, if_neg hne]

theorem codeMatchAt_none {s : Chars} (i : Nat) (h : btick ∉ s) :
    codeMatchAt s i = none := by
  have hne : ¬ at? s i = some btick := fun hc => h (mem_of_at? hc)
  rw [codeMatchAt, if_neg hne]

theorem imageMatchAt_none {s : Chars} (i : Nat) (h : '!' ∉ s) :
    imageMatchAt s i = none := by
  have hne : ¬ (at? s i = some '!' ∧ at? s (i + 1) = some '[') :=
    fun hc => h (mem_of_at? hc.1)
  rw [imageMatchAt, if_neg hne]

theorem linkMatchAt_none {s : Chars} (i : Nat) (h : '[' ∉ s) :
    linkMatchAt s i = none := by
  have hne : ¬ at? s i = some '[' := fun hc => h (mem_of_at? hc)
  rw [linkMatchAt, if_neg hne]

theorem topMatches_nil {s : Chars}
    (h : ∀ c ∈ s, specialChar c = false) : topMatches s = [] := by
  have hnot : ∀ c : Char, specialChar c = true → c ∉ s :=
    fun c hc hm => absurd (h c hm) (by simp [hc])
  have h1 : ∀ i, imageMatchAt s i = none :=
    fun i => imageMatchAt_none i (hnot '!' (by decide))
  have h2 : ∀ i, linkMatchAt s i = none :=
    fun i => linkMatchAt_none i (hnot '[' (by decide))
  have hstar : '*' ∉ s := hnot '*' (by decide)
  have hunder : '_' ∉ s := hnot '_' (by decide)
  have htilde : '~' ∉ s := hnot '~' (by decide)
  have h3 : ∀ i, pairMatchAt "***".data s i = none :=
    fun i => pairMatchAt_none i rfl hstar
  have h4 : ∀ i, pairMatchAt "___".data s i = none :=
    fun i => pairMatchAt_none i rfl hunder
  have h5 : ∀ i, pairMatchAt "**".data s i = none :=
    fun i => pairMatchAt_none i rfl hstar
  have h6 : ∀ i, pairMatchAt "__".data s i = none :=
    fun i => pairMatchAt_none i rfl hunder
  have h7 : ∀ i, italicMatchAt '*' s i = none :=
    fun i => italicMatchAt_none i hstar
  have h8 : ∀ i, italicMatchAt '_' s i = none :=
    fun i => italicMatchAt_none i hunder
  have h9 : ∀ i, pairMatchAt "~~".data s i = none :=
    fun i => pairMatchAt_none i rfl htilde
  have h10 : ∀ i, codeMatchAt s i = none :=
    fun i => codeMatchAt_none i (hnot btick (by decide))
  rw [topMatches, matchesOf, matchesOf, matchesOf, matchesOf, matchesOf,
    matchesOf, matchesOf, matchesOf,
    finditer_eq_nil h1, finditer_eq_nil h2, finditer_eq_nil h3,
    finditer_eq_nil h4, finditer_eq_nil h5, finditer_eq_nil h6,
    finditer_eq_nil h7, finditer_eq_nil h8, finditer_eq_nil h9,
    finditer_eq_nil h10]
  rfl

theorem parseInline_no_matches {t : Chars} (h0 : t ≠ [])
    (h : topMatches t = []) : parseInline t = [mkText t none] := by
  have hpos : 0 < t.length := List.length_pos.mpr h0
  rw [parseInline, if_neg h0, h]
  simp [stableSort, filterOv, slice_full, hpos, h0, inlinePre]

/-- Claim C2 amended: for a non-empty single-line string with no special
characters (and at least one non-whitespace character), `convert` returns
a SINGLE operation whose content is the text with the newline appended —
the cleanup pass merges the text insert and the terminating newline
insert. -/
theorem C2_plain_paragraph (s : String) (h0 : s.data ≠ [])
    (hplain : ∀ c ∈ s.data, specialChar c = false)
    (hnws : ∃ c ∈ s.data, isPySpace c = false) :
    convert s = [⟨.text (s ++ "\n"), none⟩] := by
  have hne : s ≠ "" := fun he => h0 (by simp [he])
  rw [convert, if_neg hne]
  have hnn : '\n' ∉ s.data :=
    fun hm => absurd (hplain '\n' hm) (by decide)
  rw [splitNl_no_newline hnn]
  have hsub : ∀ c ∈ pyStrip s.data, specialChar c = false :=
    fun c hc => hplain c (mem_pyStrip hc)
  have hfence : isFence s.data = false :=
    isFence_false (fun c hc he => absurd (he ▸ hsub c hc) (by decide))
  rw [scanLines_cons hfence, scanLines_nil, List.append_nil]
  have hHR : isHorizontalRule s.data = false := by
    apply isHorizontalRule_false
    intro c hc hor
    rcases hor with rfl | rfl | rfl <;> exact absurd (hsub _ hc) (by decide)
  have hH : headerMatch s.data = none := by
    apply headerMatch_none
    intro hh
    exact absurd (hplain '#' (mem_of_head? hh)) (by decide)
  have hB : blockquoteMatch s.data = none := by
    apply blockquoteMatch_none
    intro hh
    exact absurd (hplain '>' (mem_of_head? hh)) (by decide)
  have hU : unorderedMatch s.data = none := by
    apply unorderedMatch_none
    intro c hc hor
    rcases hor with rfl | rfl | rfl <;> exact absurd (hplain _ hc) (by decide)
  have hO : orderedMatch s.data = none := by
    apply orderedMatch_none
    intro c hc
    have h2 := hplain c hc
    rw [specialChar, Bool.or_eq_false_iff] at h2
    exact h2.2
  have hT : taskMatch s.data = none := by
    apply taskMatch_none
    intro c hh hor
    rcases hor with rfl | rfl | rfl <;>
      exact absurd (hplain _ (mem_of_head? hh)) (by decide)
  have hNE : pyStrip s.data ≠ [] := pyStrip_ne_nil hnws
  rw [lineOps_paragraph hHR hH hB hU hO hT hNE]
  rw [parseInline_no_matches h0 (topMatches_nil hplain)]
  have hfil : dropEmptyOps [mkText s.data none, nlOp none] =
      [mkText s.data none, nlOp none] := by
    rw [dropEmptyOps, List.filter_eq_self]
    intro a ha
    rcases List.mem_cons.mp ha with rfl | ha2
    · have hmk : ¬ (String.mk s.data = "") := by
        intro he
        exact h0 (by simpa using congrArg String.data he)
      simp [isEmptyPlain, mkText, hmk]
    · simp at ha2
      rw [ha2]
      rfl
  rw [List.singleton_append, cleanupOps, if_neg (by simp), hfil]
  rfl

/-- Claim C2 witness: the concrete plain paragraph `"hi there"`. -/
theorem C2_witness : convert "hi there" = [⟨.text "hi there\n", none⟩] :=
  C2_plain_paragraph "hi there" (by decide) (by decide) (by decide)

theorem pairMatchAt_sub {d s : Chars} {i e : Nat} {g : Chars}
    (h : pairMatchAt d s i = some (e, g)) : ∀ c ∈ g, c ∈ s := by
  rw [pairMatchAt] at h
  by_cases hc : (s.drop i).take d.length = d
  · rw [if_pos hc] at h
    cases hf : findFrom (fun j => decide ((s.drop j).take d.length = d))
        (i + d.length + 1) s.length with
    | none => rw [hf] at h; cases h
    | some j =>
      rw [hf] at h
      have h2 := Option.some.inj h
      have hg : slice s (i + d.length) j = g := congrArg Prod.snd h2
      subst hg
      exact fun c hc2 => mem_of_slice hc2
  · rw [if_neg hc] at h; cases h

theorem italicMatchAt_sub {mark : Char} {s : Chars} {i e : Nat} {g : Chars}
    (h : italicMatchAt mark s i = some (e, g)) : ∀ c ∈ g, c ∈ s := by
  rw [italicMatchAt] at h
  by_cases hc : at? s i = some mark ∧ (i = 0 ∨ ¬ at? s (i - 1) = some mark) ∧
      ¬ at? s (i + 1) = some mark
  · rw [if_pos hc] at h
    cases hf : findFrom (fun j => decide (at? s j = some mark ∧
        ¬ at? s (j - 1) = some mark ∧ ¬ at? s (j + 1) = some mark))
        (i + 2) s.length with
    | none => rw [hf] at h; cases h
    | some j =>
      rw [hf] at h
      have h2 := Option.some.inj h
      have hg : slice s (i + 1) j = g := congrArg Prod.snd h2
      subst hg
      exact fun c hc2 => mem_of_slice hc2
  · rw [if_neg hc] at h; cases h

theorem codeMatchAt_sub {s : Chars} {i e : Nat} {g : Chars}
    (h : codeMatchAt s i = some (e, g)) : ∀ c ∈ g, c ∈ s := by
  rw [codeMatchAt] at h
  by_cases hc : at? s i = some btick
  · rw [if_pos hc] at h
    cases hf : findFrom (fun j => decide (at? s j = some btick)) (i + 1) s.length with
    | none => rw [hf] at h; cases h
    | some j =>
      rw [hf] at h
      dsimp only at h
      by_cases hij : i + 1 < j
      · rw [if_pos hij] at h
        have h2 := Option.some.inj h
        have hg : slice s (i + 1) j = g := congrArg Prod.snd h2
        subst hg
        exact fun c hc2 => mem_of_slice hc2
      · rw [if_neg hij] at h; cases h
  · rw [if_neg hc] at h; cases h

theorem imageMatchAt_sub {s : Chars} {i e : Nat} {alt url : Chars}
    (h : imageMatchAt s i = some (e, alt, url)) :
    (∀ c ∈ alt, c ∈ s) ∧ (∀ c ∈ url, c ∈ s) := by
  rw [imageMatchAt] at h
  by_cases hc : at? s i = some '!' ∧ at? s (i + 1) = some '['
  · rw [if_pos hc] at h
    cases hf : findFrom (fun j => decide (at? s j = some ']')) (i + 2) s.length with
    | none => rw [hf] at h; cases h
    | some j =>
      rw [hf] at h
      dsimp only at h
      by_cases hp : at? s (j + 1) = some '('
      · rw [if_pos hp] at h
        cases hk : findFrom (fun k => decide (at? s k = some ')'))
            (j + 2) s.length with
        | none => rw [hk] at h; cases h
        | some k =>
          rw [hk] at h
          dsimp only at h
          by_cases hjk : j + 2 < k
          · rw [if_pos hjk] at h
            have h2 := Option.some.inj h
            have ha : slice s (i + 2) j = alt := congrArg (fun x => x.2.1) h2
            have hu : slice s (j + 2) k = url := congrArg (fun x => x.2.2) h2
            subst ha; subst hu
            exact ⟨fun c hc2 => mem_of_slice hc2, fun c hc2 => mem_of_slice hc2⟩
          · rw [if_neg hjk] at h; cases h
      · rw [if_neg hp] at h; cases h
  · rw [if_neg hc] at h; cases h

theorem linkMatchAt_sub {s : Chars} {i e : Nat} {txt url : Chars}
    (h : linkMatchAt s i = some (e, txt, url)) :
    (∀ c ∈ txt, c ∈ s) ∧ (∀ c ∈ url, c ∈ s) := by
  rw [linkMatchAt] at h
  by_cases hc : at? s i = some '['
  · rw [if_pos hc] at h
    cases hf : findFrom (fun j => decide (at? s j = some ']')) (i + 1) s.length with
    | none => rw [hf] at h; cases h
    | some j =>
      rw [hf] at h
      dsimp only at h
      by_cases hp : i + 1 < j ∧ at? s (j + 1) = some '('
      · rw [if_pos hp] at h
        cases hk : findFrom (fun k => decide (at? s k = some ')'))
            (j + 2) s.length with
        | none => rw [hk] at h; cases h
        | some k =>
          rw [hk] at h
          dsimp only at h
          by_cases hjk : j + 2 < k
          · rw [if_pos hjk] at h
            have h2 := Option.some.inj h
            have ha : slice s (i + 1) j = txt := congrArg (fun x => x.2.1) h2
            have hu : slice s (j + 2) k = url := congrArg (fun x => x.2.2) h2
            subst ha; subst hu
            exact ⟨fun c hc2 => mem_of_slice hc2, fun c hc2 => mem_of_slice hc2⟩
          · rw [if_neg hjk] at h; cases h
      · rw [if_neg hp] at h; cases h
  · rw [if_neg hc] at h; cases h

theorem mem_insOrd {lt : α → α → Bool} {x y : α} :
    ∀ {l : List α}, y ∈ insOrd lt x l → y = x ∨ y ∈ l := by
  intro l
  induction l with
  | nil => intro h; simp [insOrd] at h; exact Or.inl h
  | cons z zs ih =>
    intro h
    rw [insOrd] at h
    by_cases hlt : lt x z = true
    · rw [if_pos hlt] at h
      rcases List.mem_cons.mp h with h1 | h1
      · exact Or.inl h1
      · exact Or.inr h1
    · rw [if_neg hlt] at h
      rcases List.mem_cons.mp h with h1 | h1
      · exact Or.inr (by rw [h1]; exact List.mem_cons_self z zs)
      · rcases ih h1 with h2 | h2
        · exact Or.inl h2
        · exact Or.inr (List.mem_cons_of_mem _ h2)

theorem mem_stableSort {lt : α → α → Bool} {l : List α} {y : α}
    (h : y ∈ stableSort lt l) : y ∈ l := by
  suffices hgen : ∀ (l2 : List α) (acc : List α),
      y ∈ l2.foldl (fun a x => insOrd lt x a) acc → y ∈ acc ∨ y ∈ l2 by
    rcases hgen l [] h with h1 | h1
    · cases h1
    · exact h1
  intro l2
  induction l2 with
  | nil => intro acc h1; exact Or.inl h1
  | cons x xs ih =>
    intro acc h1
    rw [List.foldl_cons] at h1
    rcases ih _ h1 with h2 | h2
    · rcases mem_insOrd h2 with h3 | h3
      · exact Or.inr (by rw [h3]; exact List.mem_cons_self _ _)
      · exact Or.inl h3
    · exact Or.inr (List.mem_cons_of_mem _ h2)

theorem mem_filterOv {start stop : α → Nat} {ms : List α} {y : α}
    (h : y ∈ filterOv start stop ms) : y ∈ ms := by
  suffices hgen : ∀ (l2 : List α) (acc : List α × Nat),
      y ∈ (l2.foldl (fun acc m =>
        if acc.2 ≤ start m then (acc.1 ++ [m], stop m) else acc) acc).1 →
      y ∈ acc.1 ∨ y ∈ l2 by
    rcases hgen ms ([], 0) h with h1 | h1
    · cases h1
    · exact h1
  intro l2
  induction l2 with
  | nil => intro acc h1; exact Or.inl h1
  | cons m ms2 ih =>
    intro acc h1
    rw [List.foldl_cons] at h1
    by_cases hle : acc.2 ≤ start m
    · rw [if_pos hle] at h1
      rcases ih _ h1 with h2 | h2
      · rcases List.mem_append.mp h2 with h3 | h3
        · exact Or.inl h3
        · simp at h3
          exact Or.inr (by rw [h3]; exact List.mem_cons_self _ _)
      · exact Or.inr (List.mem_cons_of_mem _ h2)
    · rw [if_neg hle] at h1
      rcases ih _ h1 with h2 | h2
      · exact Or.inl h2
      · exact Or.inr (List.mem_cons_of_mem _ h2)

theorem topMatches_char {s : Chars} {m : RawMatch} (h : m ∈ topMatches s) :
    (∃ alt url, m.payload = .imageM alt url ∧
      (∀ c ∈ alt, c ∈ s) ∧ (∀ c ∈ url, c ∈ s)) ∨
    (∃ txt url, m.payload = .linkM txt url ∧
      (∀ c ∈ txt, c ∈ s) ∧ (∀ c ∈ url, c ∈ s)) ∨
    (∃ content attrs, m.payload = .fmtM content attrs ∧
      (∀ c ∈ content, c ∈ s) ∧
      (attrs = biAttrs ∨ attrs = boldA ∨ attrs = italicA ∨ attrs = strikeA ∨
        attrs = codeA)) := by
  rw [topMatches] at h
  rcases List.mem_append.mp h with h1 | h1
  rcases List.mem_append.mp h1 with h2 | h2
  rcases List.mem_append.mp h2 with h3 | h3
  rcases List.mem_append.mp h3 with h4 | h4
  rcases List.mem_append.mp h4 with h5 | h5
  rcases List.mem_append.mp h5 with h6 | h6
  rcases List.mem_append.mp h6 with h7 | h7
  rcases List.mem_append.mp h7 with h8 | h8
  rcases List.mem_append.mp h8 with h9 | h9
  -- image
  · obtain ⟨t, ht, rfl⟩ := List.mem_map.mp h9
    have hsub := imageMatchAt_sub (e := t.2.1) (mem_finditer ht)
    exact Or.inl ⟨t.2.2.1, t.2.2.2, rfl, hsub.1, hsub.2⟩
  -- link
  · obtain ⟨t, ht, rfl⟩ := List.mem_map.mp h9
    have hsub := linkMatchAt_sub (e := t.2.1) (mem_finditer ht)
    exact Or.inr (Or.inl ⟨t.2.2.1, t.2.2.2, rfl, hsub.1, hsub.2⟩)
  -- ***
  · obtain ⟨t, ht, rfl⟩ := List.mem_map.mp h8
    exact Or.inr (Or.inr ⟨t.2.2, biAttrs, rfl,
      pairMatchAt_sub (e := t.2.1) (mem_finditer ht), Or.inl rfl⟩)
  -- ___
  · obtain ⟨t, ht, rfl⟩ := List.mem_map.mp h7
    exact Or.inr (Or.inr ⟨t.2.2, biAttrs, rfl,
      pairMatchAt_sub (e := t.2.1) (mem_finditer ht), Or.inl rfl⟩)
  -- **
  · obtain ⟨t, ht, rfl⟩ := List.mem_map.mp h6
    exact Or.inr (Or.inr ⟨t.2.2, boldA, rfl,
      pairMatchAt_sub (e := t.2.1) (mem_finditer ht), Or.inr (Or.inl rfl)⟩)
  -- __
  · obtain ⟨t, ht, rfl⟩ := List.mem_map.mp h5
    exact Or.inr (Or.inr ⟨t.2.2, boldA, rfl,
      pairMatchAt_sub (e := t.2.1) (mem_finditer ht), Or.inr (Or.inl rfl)⟩)
  -- italic *
  · obtain ⟨t, ht, rfl⟩ := List.mem_map.mp h4
    exact Or.inr (Or.inr ⟨t.2.2, italicA, rfl,
      italicMatchAt_sub (e := t.2.1) (mem_finditer ht),
      Or.inr (Or.inr (Or.inl rfl))⟩)
  -- italic _
  · obtain ⟨t, ht, rfl⟩ := List.mem_map.mp h3
    exact Or.inr (Or.inr ⟨t.2.2, italicA, rfl,
      italicMatchAt_sub (e := t.2.1) (mem_finditer ht),
      Or.inr (Or.inr (Or.inl rfl))⟩)
  -- ~~
  · obtain ⟨t, ht, rfl⟩ := List.mem_map.mp h2
    exact Or.inr (Or.inr ⟨t.2.2, strikeA, rfl,
      pairMatchAt_sub (e := t.2.1) (mem_finditer ht),
      Or.inr (Or.inr (Or.inr (Or.inl rfl)))⟩)
  -- code
  · obtain ⟨t, ht, rfl⟩ := List.mem_map.mp h1
    exact Or.inr (Or.inr ⟨t.2.2, codeA, rfl,
      codeMatchAt_sub (e := t.2.1) (mem_finditer ht),
      Or.inr (Or.inr (Or.inr (Or.inr rfl)))⟩)

theorem nestedPre_mem {t : Chars} {parent : Attrs} {pos upto : Nat} {op : Op}
    (h : op ∈ nestedPre t parent pos upto) :
    ∃ cs, op = mkText cs (some parent) ∧ ∀ c ∈ cs, c ∈ t := by
  rw [nestedPre] at h
  by_cases hc : pos < upto ∧ slice t pos upto ≠ []
  · rw [if_pos hc] at h
    simp at h
    exact ⟨slice t pos upto, h, fun c hc2 => mem_of_slice hc2⟩
  · rw [if_neg hc] at h; cases h

theorem inlinePre_mem {t : Chars} {pos upto : Nat} {op : Op}
    (h : op ∈ inlinePre t pos upto) :
    ∃ cs, op = mkText cs none ∧ ∀ c ∈ cs, c ∈ t := by
  rw [inlinePre] at h
  by_cases hc : pos < upto ∧ slice t pos upto ≠ []
  · rw [if_pos hc] at h
    simp at h
    exact ⟨slice t pos upto, h, fun c hc2 => mem_of_slice hc2⟩
  · rw [if_neg hc] at h; cases h

theorem nestedFold_mem {t : Chars} {parent : Attrs} :
    ∀ (l : List NMatch) (acc : List Op × Nat) {op : Op},
    op ∈ (l.foldl (nestedStep t parent) acc).1 →
    op ∈ acc.1 ∨ ∃ m ∈ l, ∃ pos : Nat,
      op ∈ nestedPre t parent pos m.start ∨
      op = mkText m.content (some (parent ++ m.attrs)) := by
  intro l
  induction l with
  | nil => intro acc op h; exact Or.inl h
  | cons m ms ih =>
    intro acc op h
    rw [List.foldl_cons] at h
    rcases ih _ h with h1 | h1
    · simp only [nestedStep] at h1
      rcases List.mem_append.mp h1 with h2 | h2
      · rcases List.mem_append.mp h2 with h3 | h3
        · exact Or.inl h3
        · exact Or.inr ⟨m, List.mem_cons_self _ _, acc.2, Or.inl h3⟩
      · simp at h2
        exact Or.inr ⟨m, List.mem_cons_self _ _, acc.2, Or.inr h2⟩
    · obtain ⟨m2, hm2, pos, hp⟩ := h1
      exact Or.inr ⟨m2, List.mem_cons_of_mem _ hm2, pos, hp⟩

theorem inlineFold_mem {t : Chars} :
    ∀ (l : List RawMatch) (acc : List Op × Nat) {op : Op},
    op ∈ (l.foldl (inlineStep t) acc).1 →
    op ∈ acc.1 ∨ ∃ m ∈ l, (∃ pos : Nat, op ∈ inlinePre t pos m.start) ∨
      op ∈ applyPayload m.payload := by
  intro l
  induction l with
  | nil => intro acc op h; exact Or.inl h
  | cons m ms ih =>
    intro acc op h
    rw [List.foldl_cons] at h
    rcases ih _ h with h1 | h1
    · simp only [inlineStep] at h1
      rcases List.mem_append.mp h1 with h2 | h2
      · rcases List.mem_append.mp h2 with h3 | h3
        · exact Or.inl h3
        · exact Or.inr ⟨m, List.mem_cons_self _ _, Or.inl ⟨acc.2, h3⟩⟩
      · exact Or.inr ⟨m, List.mem_cons_self _ _, Or.inr h2⟩
    · obtain ⟨m2, hm2, hp⟩ := h1
      exact Or.inr ⟨m2, List.mem_cons_of_mem _ hm2, hp⟩

theorem parseNested_ops {t : Chars} {parent : Attrs} {op : Op}
    (h : op ∈ parseNestedInline t parent) :
    (∃ cs, op = mkText cs (some parent) ∧ ∀ c ∈ cs, c ∈ t) ∨
    (∃ m ∈ nestedMatches parent t,
      op = mkText m.content (some (parent ++ m.attrs))) := by
  simp only [parseNestedInline] at h
  by_cases hms : nestedMatches parent t = []
  · rw [if_pos hms] at h
    simp at h
    exact Or.inl ⟨t, h, fun c hc => hc⟩
  · rw [if_neg hms] at h
    by_cases hseg :
        ((filterOv NMatch.start NMatch.stop
          (stableSort nmLt (nestedMatches parent t))).foldl
            (nestedStep t parent) ([], 0)).1 ++
          nestedPre t parent
            ((filterOv NMatch.start NMatch.stop
              (stableSort nmLt (nestedMatches parent t))).foldl
                (nestedStep t parent) ([], 0)).2 t.length = []
    · rw [if_pos hseg] at h
      simp at h
      exact Or.inl ⟨t, h, fun c hc => hc⟩
    · rw [if_neg hseg] at h
      rcases List.mem_append.mp h with h1 | h1
      · rcases nestedFold_mem _ _ h1 with h2 | h2
        · cases h2
        · obtain ⟨m, hm, pos, hp⟩ := h2
          have hmem : m ∈ nestedMatches parent t :=
            mem_stableSort (mem_filterOv hm)
          rcases hp with h3 | h3
          · exact Or.inl (nestedPre_mem h3)
          · exact Or.inr ⟨m, hmem, h3⟩
      · exact Or.inl (nestedPre_mem h1)

theorem parseInline_ops {t : Chars} {op : Op} (h : op ∈ parseInline t) :
    (∃ cs, op = mkText cs none ∧ ∀ c ∈ cs, c ∈ t) ∨
    (∃ m ∈ topMatches t, op ∈ applyPayload m.payload) := by
  simp only [parseInline] at h
  by_cases h0 : t = []
  · rw [if_pos h0] at h; cases h
  · rw [if_neg h0] at h
    by_cases hseg :
        ((filterOv RawMatch.start RawMatch.stop
          (stableSort rmLt (topMatches t))).foldl (inlineStep t) ([], 0)).1 ++
          inlinePre t
            ((filterOv RawMatch.start RawMatch.stop
              (stableSort rmLt (topMatches t))).foldl
                (inlineStep t) ([], 0)).2 t.length = []
    · rw [if_pos hseg] at h
      simp at h
      exact Or.inl ⟨t, h, fun c hc => hc⟩
    · rw [if_neg hseg] at h
      rcases List.mem_append.mp h with h1 | h1
      · rcases inlineFold_mem _ _ h1 with h2 | h2
        · cases h2
        · obtain ⟨m, hm, hp⟩ := h2
          have hmem : m ∈ topMatches t := mem_stableSort (mem_filterOv hm)
          rcases hp with ⟨pos, h3⟩ | h3
          · exact Or.inl (inlinePre_mem h3)
          · exact Or.inr ⟨m, hmem, h3⟩
      · exact Or.inl (inlinePre_mem h1)

theorem nmOf_mem {parent : Attrs} {f : Nat → Option (Nat × Chars)} {len : Nat}
    {attrs : Attrs} {m : NMatch} (h : m ∈ nmOf parent f len attrs) :
    m.attrs = attrs ∧ keysOverlap attrs parent = false ∧
    ∃ i e, f i = some (e, m.content) := by
  rw [nmOf] at h
  by_cases hko : keysOverlap attrs parent = true
  · rw [if_pos hko] at h; cases h
  · rw [if_neg hko] at h
    obtain ⟨t, ht, rfl⟩ := List.mem_map.mp h
    exact ⟨rfl, by simpa using hko, t.1, t.2.1, mem_finditer ht⟩

theorem nestedMatches_char {parent : Attrs} {t : Chars} {m : NMatch}
    (h : m ∈ nestedMatches parent t) :
    (∃ k v, m.attrs = [(k, v)]) ∧ keysOverlap m.attrs parent = false ∧
    ∀ c ∈ m.content, c ∈ t := by
  rw [nestedMatches] at h
  rcases List.mem_append.mp h with h1 | h1
  rcases List.mem_append.mp h1 with h2 | h2
  rcases List.mem_append.mp h2 with h3 | h3
  rcases List.mem_append.mp h3 with h4 | h4
  rcases List.mem_append.mp h4 with h5 | h5
  · obtain ⟨ha, hko, i, e, hf⟩ := nmOf_mem h5
    exact ⟨⟨"bold", .bool true, ha⟩, by rw [ha]; exact hko, pairMatchAt_sub hf⟩
  · obtain ⟨ha, hko, i, e, hf⟩ := nmOf_mem h5
    exact ⟨⟨"bold", .bool true, ha⟩, by rw [ha]; exact hko, pairMatchAt_sub hf⟩
  · obtain ⟨ha, hko, i, e, hf⟩ := nmOf_mem h4
    exact ⟨⟨"italic", .bool true, ha⟩, by rw [ha]; exact hko,
      italicMatchAt_sub hf⟩
  · obtain ⟨ha, hko, i, e, hf⟩ := nmOf_mem h3
    exact ⟨⟨"italic", .bool true, ha⟩, by rw [ha]; exact hko,
      italicMatchAt_sub hf⟩
  · obtain ⟨ha, hko, i, e, hf⟩ := nmOf_mem h2
    exact ⟨⟨"strike", .bool true, ha⟩, by rw [ha]; exact hko,
      pairMatchAt_sub hf⟩
  · obtain ⟨ha, hko, i, e, hf⟩ := nmOf_mem h1
    exact ⟨⟨"code", .bool true, ha⟩, by rw [ha]; exact hko, codeMatchAt_sub hf⟩

theorem keysOverlap_single {k : String} {v : AttrVal} {parent : Attrs}
    (h : keysOverlap [(k, v)] parent = false) : ∀ kv ∈ parent, ¬ k = kv.1 := by
  intro kv hkv hek
  rw [keysOverlap] at h
  simp only [List.any_cons, List.any_nil, Bool.or_false,
    List.any_eq_false] at h
  exact absurd (beq_iff_eq.mpr hek) (by simpa using h kv hkv)

theorem nodup_single (k : String) (v : AttrVal) :
    (attrKeys [(k, v)]).Nodup := by
  simp [attrKeys]

theorem nodup_pair {k1 k2 : String} (h : ¬ k1 = k2) (v1 v2 : AttrVal) :
    (attrKeys [(k1, v1), (k2, v2)]).Nodup := by
  simp [attrKeys, h]

theorem baseAttrs_good (A : Attrs)
    (hA : A = biAttrs ∨ A = boldA ∨ A = italicA ∨ A = strikeA ∨ A = codeA) :
    (attrKeys A).Nodup ∧ A ≠ [] := by
  rcases hA with rfl | rfl | rfl | rfl | rfl <;> exact ⟨by decide, by decide⟩

theorem parseNested_good {t : Chars} {parent : Attrs}
    (hnd : (attrKeys parent).Nodup) (hne : parent ≠ []) :
    ∀ op ∈ parseNestedInline t parent, GoodOp op := by
  intro op h
  rcases parseNested_ops h with ⟨cs, rfl, _⟩ | ⟨m, hm, rfl⟩
  · exact ⟨hnd, fun he => absurd he hne⟩
  · obtain ⟨⟨k, v, hk⟩, hko, _⟩ := nestedMatches_char hm
    have hknotin : ∀ kv ∈ parent, ¬ k = kv.1 := by
      rw [hk] at hko
      exact keysOverlap_single hko
    show GoodOp (mkText m.content (some (parent ++ m.attrs)))
    rw [mkText, hk]
    refine ⟨?_, fun he => absurd he (by simp)⟩
    rw [attrKeys, List.map_append]
    apply List.Nodup.append hnd (by simp)
    intro x hx1 hx2
    simp at hx2
    obtain ⟨kv, hkv, hpk⟩ := List.mem_map.mp hx1
    rw [hx2] at hpk
    exact hknotin kv hkv hpk.symm

theorem applyPayload_good {s : Chars} {m : RawMatch} (hm : m ∈ topMatches s) :
    ∀ op ∈ applyPayload m.payload, GoodOp op := by
  intro op h
  rcases topMatches_char hm with ⟨alt, url, hp, _, _⟩ | ⟨txt, url, hp, _, _⟩ |
    ⟨content, attrs, hp, _, hA⟩
  · rw [hp] at h
    simp only [applyPayload] at h
    simp at h
    subst h
    by_cases ha : alt = []
    · rw [if_pos ha]
      exact ⟨List.nodup_nil, fun _ => rfl⟩
    · rw [if_neg ha]
      exact ⟨nodup_single _ _, fun he => absurd he (by simp)⟩
  · rw [hp] at h
    simp only [applyPayload] at h
    simp at h
    subst h
    exact ⟨nodup_single _ _, fun he => absurd he (by simp)⟩
  · rw [hp] at h
    simp only [applyPayload, handleFormat] at h
    obtain ⟨hnd, hneA⟩ := baseAttrs_good attrs hA
    by_cases hlen : 1 < (parseNestedInline content attrs).length
    · rw [if_pos hlen] at h
      exact parseNested_good hnd hneA op h
    · rw [if_neg hlen] at h
      simp at h
      subst h
      exact ⟨hnd, fun he => absurd he hneA⟩

theorem parseInline_good {t : Chars} : ∀ op ∈ parseInline t, GoodOp op := by
  intro op h
  rcases parseInline_ops h with ⟨cs, rfl, _⟩ | ⟨m, hm, hp⟩
  · exact trivial
  · exact applyPayload_good hm op hp

theorem listAttrs_good {kind : String} {ind : Nat} {ins : Insert} :
    GoodOp ⟨ins, some (listAttrs kind ind)⟩ := by
  rw [listAttrs]
  by_cases hi : 0 < ind
  · rw [if_pos hi]
    exact ⟨nodup_pair (by decide) _ _, fun he => absurd he (by simp)⟩
  · rw [if_neg hi]
    exact ⟨nodup_single _ _, fun he => absurd he (by simp)⟩

theorem lineOps_good {line : Chars} : ∀ op ∈ lineOps line, GoodOp op := by
  intro op h
  rw [lineOps] at h
  split at h
  · simp at h
    rcases h with rfl | rfl <;> exact trivial
  · split at h
    · rcases List.mem_append.mp h with h1 | h1
      · exact parseInline_good _ h1
      · simp at h1
        subst h1
        exact ⟨nodup_single _ _, fun he => absurd he (by simp)⟩
    · split at h
      · rcases List.mem_append.mp h with h1 | h1
        · rename_i content _
          by_cases hc : content ≠ []
          · rw [if_pos hc] at h1
            exact parseInline_good _ h1
          · rw [if_neg hc] at h1
            simp at h1
            subst h1
            exact trivial
        · simp at h1
          subst h1
          exact ⟨nodup_single _ _, fun he => absurd he (by simp)⟩
      · split at h
        · rcases List.mem_append.mp h with h1 | h1
          · exact parseInline_good _ h1
          · simp at h1
            subst h1
            exact listAttrs_good
        · split at h
          · rcases List.mem_append.mp h with h1 | h1
            · exact parseInline_good _ h1
            · simp at h1
              subst h1
              exact listAttrs_good
          · split at h
            · rcases List.mem_append.mp h with h1 | h1
              · exact parseInline_good _ h1
              · simp at h1
                subst h1
                exact ⟨nodup_single _ _, fun he => absurd he (by simp)⟩
            · rcases List.mem_append.mp h with h1 | h1
              · by_cases hp : pyStrip line ≠ []
                · rw [if_pos hp] at h1
                  exact parseInline_good _ h1
                · rw [if_neg hp] at h1
                  cases h1
              · simp at h1
                subst h1
                exact trivial

theorem cbAttr_good {lang : Chars} {ins : Insert} :
    GoodOp ⟨ins, some (cbAttr lang)⟩ :=
  ⟨nodup_single _ _, fun he => absurd he (by simp [cbAttr])⟩

theorem emitCodeLines_good {lang : Chars} :
    ∀ (ls : List Chars), ∀ op ∈ emitCodeLines lang ls, GoodOp op := by
  intro ls
  induction ls with
  | nil => intro op h; cases h
  | cons l rest ih =>
    intro op h
    cases rest with
    | nil =>
      rw [emitCodeLines] at h
      by_cases hl : l ≠ []
      · rw [if_pos hl] at h
        simp at h
        rcases h with rfl | rfl
        · exact trivial
        · exact cbAttr_good
      · rw [if_neg hl] at h
        cases h
    | cons l2 rest2 =>
      rw [emitCodeLines] at h
      rcases List.mem_append.mp h with h1 | h1
      · rcases List.mem_append.mp h1 with h2 | h2
        · by_cases hl : l ≠ []
          · rw [if_pos hl] at h2
            simp at h2
            subst h2
            exact trivial
          · rw [if_neg hl] at h2
            cases h2
        · simp at h2
          subst h2
          exact cbAttr_good
      · exact ih op h1

theorem handleCodeBlock_good {firstLine : Chars} {rest : List Chars} :
    ∀ op ∈ (handleCodeBlock firstLine rest).1, GoodOp op := by
  intro op h
  simp only [handleCodeBlock] at h
  by_cases hj : joinNl (collectCode rest).1 = []
  · rw [if_pos hj] at h
    cases h
  · rw [if_neg hj] at h
    rcases List.mem_append.mp h with h1 | h1
    · exact emitCodeLines_good _ op h1
    · by_cases hc : (collectCode rest).1 ≠ []
      · rw [if_pos hc] at h1
        simp at h1
        subst h1
        exact cbAttr_good
      · rw [if_neg hc] at h1
        cases h1

theorem scanLinesF_good :
    ∀ (fuel : Nat) (lines : List Chars), ∀ op ∈ scanLinesF fuel lines,
      GoodOp op := by
  intro fuel
  induction fuel with
  | zero => intro lines op h; cases h
  | succ f ih =>
    intro lines op h
    cases lines with
    | nil => cases h
    | cons line rest =>
      rw [scanLinesF] at h
      by_cases hf : isFence line = true
      · rw [if_pos hf] at h
        rcases List.mem_append.mp h with h1 | h1
        · exact handleCodeBlock_good op h1
        · exact ih _ op h1
      · rw [if_neg hf] at h
        rcases List.mem_append.mp h with h1 | h1
        · exact lineOps_good op h1
        · exact ih _ op h1

theorem convert_good {s : String} : ∀ op ∈ convert s, GoodOp op := by
  intro op h
  rw [convert] at h
  by_cases hs : s = ""
  · rw [if_pos hs] at h; cases h
  · rw [if_neg hs] at h
    rw [cleanupOps] at h
    by_cases h0 : scanLines (splitNl s.data) = []
    · rw [if_pos h0] at h
      rw [h0] at h
      cases h
    · rw [if_neg h0] at h
      refine mergePlain_all (Q := GoodOp) (fun sa sb _ _ => trivial) ?_ op h
      intro op2 hop2
      exact scanLinesF_good _ _ op2 (List.mem_of_mem_filter hop2)

/-- Claim C5, amended: in every operation of `convert`'s output, a present
`attributes` mapping is non-empty EXCEPT on image embeds (produced from
`![](url)` with empty alt text), which carry a present-but-empty
mapping. -/
theorem C5_attrs_nonempty_or_image (s : String) (op : Op)
    (hop : op ∈ convert s) (a : Attrs) (ha : op.attributes = some a) :
    a ≠ [] ∨ isImageInsert op = true := by
  have hg := convert_good op hop
  obtain ⟨ins, attrs⟩ := op
  simp at ha
  subst ha
  by_cases he : a = []
  · exact Or.inr (hg.2 he)
  · exact Or.inl he

/-- Claim C5 witness: the bold insert of `convert "**x**"`. -/
theorem C5_witness :
    ([("bold", AttrVal.bool true)] : Attrs) ≠ [] ∨
      isImageInsert ⟨.text "x", some [("bold", .bool true)]⟩ = true :=
  C5_attrs_nonempty_or_image "**x**" ⟨.text "x", some [("bold", .bool true)]⟩
    (by decide) [("bold", .bool true)] rfl

/-- Claim C6, amended: inline code spans are NOT atomic — the nested pass
resolves bold/italic/strike inside them, so `code` can co-occur with those
keys; what does hold is that the keys within any single `attributes`
mapping are pairwise distinct (no key, `code` included, is ever applied
twice to one insert). -/
theorem C6_attr_keys_distinct (s : String) (op : Op) (hop : op ∈ convert s)
    (a : Attrs) (ha : op.attributes = some a) : (attrKeys a).Nodup := by
  have hg := convert_good op hop
  obtain ⟨ins, attrs⟩ := op
  simp at ha
  subst ha
  exact hg.1

/-- Claim C6 witness: the `code`+`bold` insert of ``convert "`a **b** c`"``. -/
theorem C6_witness :
    (attrKeys [("code", AttrVal.bool true), ("bold", AttrVal.bool true)]).Nodup :=
  C6_attr_keys_distinct "`a **b** c`"
    ⟨.text "b", some [("code", .bool true), ("bold", .bool true)]⟩
    (by decide) [("code", .bool true), ("bold", .bool true)] rfl

theorem nlCount_append (a b : List Op) :
    nlCount (a ++ b) = nlCount a + nlCount b := by
  rw [nlCount, List.map_append, List.sum_append]
  rfl

theorem nlCount_cons (op : Op) (rest : List Op) :
    nlCount (op :: rest) = nlCountOp op + nlCount rest := by
  rw [nlCount, List.map_cons, List.sum_cons]
  rfl

theorem nlCount_eq_zero {ops : List Op}
    (h : ∀ op ∈ ops, nlCountOp op = 0) : nlCount ops = 0 := by
  induction ops with
  | nil => rfl
  | cons op rest ih =>
    rw [nlCount_cons, h op (List.mem_cons_self _ _),
      ih (fun x hx => h x (List.mem_cons_of_mem _ hx))]

theorem nlCountOp_zero_of_sub {op : Op} {t : Chars} (hnl : '\n' ∉ t)
    (hsub : ∀ str, op.insert = .text str → ∀ c ∈ str.data, c ∈ t) :
    nlCountOp op = 0 := by
  obtain ⟨ins, attrs⟩ := op
  cases ins with
  | text str =>
    rw [nlCountOp]
    rw [List.length_eq_zero, List.filter_eq_nil_iff]
    intro c hc
    simp only [decide_eq_true_eq]
    intro he
    exact hnl (he ▸ hsub str rfl c hc)
  | image url => rfl
  | divider => rfl

theorem applyPayload_text_sub {s : Chars} {m : RawMatch}
    (hm : m ∈ topMatches s) :
    ∀ op ∈ applyPayload m.payload, ∀ str, op.insert = .text str →
      ∀ c ∈ str.data, c ∈ s := by
  intro op h str hins c hc
  rcases topMatches_char hm with ⟨alt, url, hp, _, _⟩ |
    ⟨txt, url, hp, hts, _⟩ | ⟨content, attrs, hp, hcs, hA⟩
  · rw [hp] at h
    simp only [applyPayload] at h
    simp at h
    subst h
    cases hins
  · rw [hp] at h
    simp only [applyPayload] at h
    simp at h
    subst h
    rw [mkText] at hins
    cases hins
    exact hts c hc
  · rw [hp] at h
    simp only [applyPayload, handleFormat] at h
    by_cases hlen : 1 < (parseNestedInline content attrs).length
    · rw [if_pos hlen] at h
      rcases parseNested_ops h with ⟨cs, rfl, hsub⟩ | ⟨m2, hm2, rfl⟩
      · rw [mkText] at hins
        cases hins
        exact hcs c (hsub c hc)
      · obtain ⟨_, _, hcsub⟩ := nestedMatches_char hm2
        rw [mkText] at hins
        cases hins
        exact hcs c (hcsub c hc)
    · rw [if_neg hlen] at h
      simp at h
      subst h
      rw [mkText] at hins
      cases hins
      exact hcs c hc

theorem parseInline_text_sub {t : Chars} {op : Op} (h : op ∈ parseInline t) :
    ∀ str, op.insert = .text str → ∀ c ∈ str.data, c ∈ t := by
  intro str hins c hc
  rcases parseInline_ops h with ⟨cs, rfl, hsub⟩ | ⟨m, hm, hp⟩
  · rw [mkText] at hins
    cases hins
    exact hsub c hc
  · exact applyPayload_text_sub hm op hp str hins c hc

theorem parseInline_nl_zero {t : Chars} (hnl : '\n' ∉ t) :
    nlCount (parseInline t) = 0 :=
  nlCount_eq_zero (fun _ hop =>
    nlCountOp_zero_of_sub hnl (parseInline_text_sub hop))

theorem wsThenContent_sub {rest content : Chars}
    (h : wsThenContent rest = some content) : ∀ c ∈ content, c ∈ rest := by
  simp only [wsThenContent] at h
  by_cases h1 : (rest.takeWhile isPySpace).length = 0
  · rw [if_pos h1] at h; cases h
  · rw [if_neg h1] at h
    by_cases h2 : (rest.takeWhile isPySpace).length < rest.length
    · rw [if_pos h2] at h
      cases h
      exact fun c hc => List.mem_of_mem_drop hc
    · rw [if_neg h2] at h
      by_cases h3 : 2 ≤ rest.length
      · rw [if_pos h3] at h
        cases h
        exact fun c hc => List.mem_of_mem_drop hc
      · rw [if_neg h3] at h; cases h

theorem headerMatch_sub {line content : Chars} {n : Nat}
    (h : headerMatch line = some (n, content)) : ∀ c ∈ content, c ∈ line := by
  simp only [headerMatch] at h
  by_cases hc : 1 ≤ (line.takeWhile (fun c => decide (c = '#'))).length ∧
      (line.takeWhile (fun c => decide (c = '#'))).length ≤ 6
  · rw [if_pos hc] at h
    cases hw : wsThenContent
        (line.drop ((line.takeWhile (fun c => decide (c = '#'))).length)) with
    | none => rw [hw] at h; cases h
    | some ct =>
      rw [hw] at h
      simp at h
      intro c hcm
      rw [← h.2] at hcm
      exact List.mem_of_mem_drop (wsThenContent_sub hw c hcm)
  · rw [if_neg hc] at h; cases h

theorem blockquoteMatch_sub {line content : Chars}
    (h : blockquoteMatch line = some content) : ∀ c ∈ content, c ∈ line := by
  cases line with
  | nil => cases h
  | cons c0 cs =>
    rw [blockquoteMatch] at h
    by_cases hc : c0 = '>'
    · rw [if_pos hc] at h
      cases h
      intro c hc2
      exact List.mem_cons_of_mem _
        ((List.dropWhile_sublist _).subset hc2)
    · rw [if_neg hc] at h; cases h

theorem unorderedMatch_sub {line content : Chars} {w : Nat}
    (h : unorderedMatch line = some (w, content)) : ∀ c ∈ content, c ∈ line := by
  simp only [unorderedMatch] at h
  cases hat : at? line ((line.takeWhile isPySpace).length) with
  | none => rw [hat] at h; cases h
  | some c0 =>
    rw [hat] at h
    dsimp only at h
    by_cases hc : c0 = '-' ∨ c0 = '*' ∨ c0 = '+'
    · rw [if_pos hc] at h
      cases hw : wsThenContent
          (line.drop ((line.takeWhile isPySpace).length + 1)) with
      | none => rw [hw] at h; cases h
      | some ct =>
        rw [hw] at h
        simp at h
        intro c hcm
        rw [← h.2] at hcm
        exact List.mem_of_mem_drop (wsThenContent_sub hw c hcm)
    · rw [if_neg hc] at h; cases h

theorem orderedMatch_sub {line content : Chars} {w : Nat}
    (h : orderedMatch line = some (w, content)) : ∀ c ∈ content, c ∈ line := by
  simp only [orderedMatch] at h
  by_cases h1 : ((line.drop ((line.takeWhile isPySpace).length)).takeWhile
      Char.isDigit).length = 0
  · rw [if_pos h1] at h; cases h
  · rw [if_neg h1] at h
    by_cases h2 : at? line ((line.takeWhile isPySpace).length +
        ((line.drop ((line.takeWhile isPySpace).length)).takeWhile
          Char.isDigit).length) = some '.'
    · rw [if_pos h2] at h
      cases hw : wsThenContent (line.drop ((line.takeWhile isPySpace).length +
          ((line.drop ((line.takeWhile isPySpace).length)).takeWhile
            Char.isDigit).length + 1)) with
      | none => rw [hw] at h; cases h
      | some ct =>
        rw [hw] at h
        simp at h
        intro c hcm
        rw [← h.2] at hcm
        exact List.mem_of_mem_drop (wsThenContent_sub hw c hcm)
    · rw [if_neg h2] at h; cases h

theorem taskMatch_sub {line content : Chars} {b : Bool}
    (h : taskMatch line = some (b, content)) : ∀ c ∈ content, c ∈ line := by
  cases line with
  | nil => cases h
  | cons c0 cs =>
    simp only [taskMatch] at h
    by_cases h1 : c0 = '-' ∨ c0 = '*' ∨ c0 = '+'
    · rw [if_pos h1] at h
      by_cases h2 : 1 ≤ (cs.takeWhile isPySpace).length ∧
          at? cs ((cs.takeWhile isPySpace).length) = some '[' ∧
          at? cs ((cs.takeWhile isPySpace).length + 2) = some ']'
      · rw [if_pos h2] at h
        cases hat : at? cs ((cs.takeWhile isPySpace).length + 1) with
        | none => rw [hat] at h; cases h
        | some mk =>
          rw [hat] at h
          dsimp only at h
          by_cases h3 : mk = ' ' ∨ mk = 'x' ∨ mk = 'X'
          · rw [if_pos h3] at h
            cases hw : wsThenContent
                (cs.drop ((cs.takeWhile isPySpace).length + 3)) with
            | none => rw [hw] at h; cases h
            | some ct =>
              rw [hw] at h
              simp at h
              intro c hcm
              rw [← h.2] at hcm
              exact List.mem_cons_of_mem _
                (List.mem_of_mem_drop (wsThenContent_sub hw c hcm))
          · rw [if_neg h3] at h; cases h
      · rw [if_neg h2] at h; cases h
    · rw [if_neg h1] at h; cases h

theorem lineOps_nl_one {line : Chars} (hnl : '\n' ∉ line) :
    nlCount (lineOps line) = 1 := by
  have hsub : ∀ (content : Chars), (∀ c ∈ content, c ∈ line) →
      nlCount (parseInline content) = 0 := by
    intro content hc
    exact parseInline_nl_zero (fun hm => hnl (hc _ hm))
  rw [lineOps]
  by_cases hHR : isHorizontalRule line = true
  · rw [if_pos hHR]; rfl
  · rw [if_neg hHR]
    cases hH : headerMatch line with
    | some p =>
      obtain ⟨n, content⟩ := p
      dsimp only
      rw [nlCount_append, hsub content (headerMatch_sub hH)]
      rfl
    | none =>
      dsimp only
      cases hB : blockquoteMatch line with
      | some content =>
        dsimp only
        rw [nlCount_append]
        by_cases hc : content ≠ []
        · rw [if_pos hc, hsub content (blockquoteMatch_sub hB)]
          rfl
        · rw [if_neg hc]
          rfl
      | none =>
        dsimp only
        cases hU : unorderedMatch line with
        | some p =>
          obtain ⟨w, content⟩ := p
          dsimp only
          rw [nlCount_append, hsub content (unorderedMatch_sub hU)]
          rfl
        | none =>
          dsimp only
          cases hO : orderedMatch line with
          | some p =>
            obtain ⟨w, content⟩ := p
            dsimp only
            rw [nlCount_append, hsub content (orderedMatch_sub hO)]
            rfl
          | none =>
            dsimp only
            cases hT : taskMatch line with
            | some p =>
              obtain ⟨b, content⟩ := p
              dsimp only
              rw [nlCount_append, hsub content (taskMatch_sub hT)]
              rfl
            | none =>
              dsimp only
              rw [nlCount_append]
              by_cases hp : pyStrip line ≠ []
              · rw [if_pos hp, hsub line (fun c hc => hc)]
                rfl
              · rw [if_neg hp]
                rfl

theorem splitNl_lines_no_nl : ∀ (cs : Chars), ∀ line ∈ splitNl cs, '\n' ∉ line := by
  intro cs
  induction cs with
  | nil =>
    intro line h
    simp [splitNl] at h
    rw [h]
    simp
  | cons c cs ih =>
    intro line h
    rw [splitNl] at h
    by_cases hc : c = '\n'
    · rw [if_pos hc] at h
      rcases List.mem_cons.mp h with rfl | h1
      · simp
      · exact ih line h1
    · rw [if_neg hc] at h
      revert h
      cases hs : splitNl cs with
      | nil =>
        intro h
        rcases List.mem_cons.mp h with rfl | h1
        · intro hm
          simp at hm
          exact hc hm.symm
        · cases h1
      | cons l ls =>
        intro h
        rcases List.mem_cons.mp h with rfl | h1
        · intro hm
          rcases List.mem_cons.mp hm with h2 | h2
          · exact hc h2.symm
          · exact ih l (hs ▸ List.mem_cons_self _ _) h2
        · exact ih line (hs ▸ List.mem_cons_of_mem _ h1)

theorem scanLines_nl {lines : List Chars}
    (hf : ∀ line ∈ lines, isFence line = false)
    (hn : ∀ line ∈ lines, '\n' ∉ line) :
    nlCount (scanLines lines) = lines.length := by
  induction lines with
  | nil => rfl
  | cons line rest ih =>
    rw [scanLines_cons (hf line (List.mem_cons_self _ _)), nlCount_append,
      lineOps_nl_one (hn line (List.mem_cons_self _ _)),
      ih (fun l hl => hf l (List.mem_cons_of_mem _ hl))
        (fun l hl => hn l (List.mem_cons_of_mem _ hl))]
    simp only [List.length_cons]
    omega

theorem isEmptyPlain_nl {op : Op} (h : isEmptyPlain op = true) :
    nlCountOp op = 0 := by
  obtain ⟨ins, attrs⟩ := op
  cases ins with
  | text str =>
    cases attrs with
    | none =>
      simp [isEmptyPlain] at h
      rw [nlCountOp, h]
      rfl
    | some a => cases h
  | image url => rfl
  | divider => rfl

theorem dropEmptyOps_nl (ops : List Op) :
    nlCount (dropEmptyOps ops) = nlCount ops := by
  induction ops with
  | nil => rfl
  | cons op rest ih =>
    simp only [dropEmptyOps, List.filter_cons] at *
    by_cases he : isEmptyPlain op = true
    · rw [if_neg (by simp [he])]
      rw [ih, nlCount_cons, isEmptyPlain_nl he]
      omega
    · rw [if_pos (by simp [he])]
      rw [nlCount_cons, nlCount_cons, ih]

theorem nlCountOp_merge (sa sb : String) :
    nlCountOp (⟨.text (sa ++ sb), none⟩ : Op) =
      nlCountOp (⟨.text sa, none⟩ : Op) + nlCountOp (⟨.text sb, none⟩ : Op) := by
  simp only [nlCountOp]
  rw [String.data_append, List.filter_append, List.length_append]

theorem mergeGo_nl : ∀ (l : List Op) (a : Op),
    nlCount (mergeGo a l) = nlCountOp a + nlCount l := by
  intro l
  induction l with
  | nil =>
    intro a
    rw [mergeGo, nlCount_cons]
  | cons b rest ih =>
    intro a
    by_cases hab : isPlainStr a = true ∧ isPlainStr b = true
    · obtain ⟨sa, ha2⟩ := isPlainStr_iff.mp hab.1
      obtain ⟨sb, hb2⟩ := isPlainStr_iff.mp hab.2
      subst ha2; subst hb2
      have hstep : mergeGo (⟨.text sa, none⟩ : Op) (⟨.text sb, none⟩ :: rest) =
          mergeGo ⟨.text (sa ++ sb), none⟩ rest := rfl
      rw [hstep, ih, nlCountOp_merge, nlCount_cons]
      omega
    · rw [mergeGo_cons_of_not_both hab, nlCount_cons, ih, nlCount_cons]

theorem cleanupOps_nl (ops : List Op) :
    nlCount (cleanupOps ops) = nlCount ops := by
  rw [cleanupOps]
  by_cases h0 : ops = []
  · rw [if_pos h0]
  · rw [if_neg h0]
    have h1 : nlCount (mergePlainOps (dropEmptyOps ops)) =
        nlCount (dropEmptyOps ops) := by
      cases hd : dropEmptyOps ops with
      | nil => rfl
      | cons a rest =>
        rw [mergePlainOps, mergeGo_nl, nlCount_cons]
    rw [h1, dropEmptyOps_nl]

/-- Claim C3, amended: for every non-empty input containing no fenced
code block lines, the total number of newline characters across the
output's text inserts equals the number of input lines (the newline-ended
operations themselves can be merged by the cleanup pass, so operations
cannot be counted, but the newline characters balance line-for-line). -/
theorem C3_newline_chars_count_lines (s : String) (h1 : s ≠ "")
    (h2 : ∀ line ∈ splitNl s.data, isFence line = false) :
    nlCount (convert s) = (splitNl s.data).length := by
  rw [convert, if_neg h1, cleanupOps_nl]
  exact scanLines_nl h2 (splitNl_lines_no_nl s.data)

/-- Claim C3 witness: the two-line input `"a\nb"`. -/
theorem C3_witness :
    nlCount (convert "a\nb") = (splitNl "a\nb".data).length :=
  C3_newline_chars_count_lines "a\nb" (by decide) (by decide)

theorem emitCodeLines_mem {lang : Chars} :
    ∀ (ls : List Chars), ∀ op ∈ emitCodeLines lang ls,
      (∃ l ∈ ls, l ≠ [] ∧ op = mkText l none) ∨
      op = nlOp (some (cbAttr lang)) := by
  intro ls
  induction ls with
  | nil => intro op h; cases h
  | cons l rest ih =>
    intro op h
    cases rest with
    | nil =>
      rw [emitCodeLines] at h
      by_cases hl : l ≠ []
      · rw [if_pos hl] at h
        simp at h
        rcases h with rfl | rfl
        · exact Or.inl ⟨l, List.mem_cons_self _ _, hl, rfl⟩
        · exact Or.inr rfl
      · rw [if_neg hl] at h; cases h
    | cons l2 rest2 =>
      rw [emitCodeLines] at h
      rcases List.mem_append.mp h with h1 | h1
      · rcases List.mem_append.mp h1 with h2 | h2
        · by_cases hl : l ≠ []
          · rw [if_pos hl] at h2
            simp at h2
            subst h2
            exact Or.inl ⟨l, List.mem_cons_self _ _, hl, rfl⟩
          · rw [if_neg hl] at h2; cases h2
        · simp at h2
          subst h2
          exact Or.inr rfl
      · rcases ih op h1 with ⟨l3, hl3, hne, heq⟩ | heq
        · exact Or.inl ⟨l3, List.mem_cons_of_mem _ hl3, hne, heq⟩
        · exact Or.inr heq

theorem attributedCount_append (a b : List Op) :
    attributedCount (a ++ b) = attributedCount a + attributedCount b := by
  rw [attributedCount, List.filter_append, List.length_append]
  rfl

theorem emitCodeLines_count {lang : Chars} :
    ∀ ls : List Chars, attributedCount (emitCodeLines lang ls) =
      ls.length - 1 + (if lastNonempty ls = true then 1 else 0) := by
  intro ls
  induction ls with
  | nil => rfl
  | cons l rest ih =>
    cases rest with
    | nil =>
      rw [emitCodeLines]
      by_cases hl : l ≠ []
      · rw [if_pos hl]
        have hlast : lastNonempty [l] = true := by
          simp [lastNonempty, hl]
        rw [hlast]
        rfl
      · rw [if_neg hl]
        have hlast : lastNonempty [l] = false := by
          simp [lastNonempty]
          simpa using hl
        rw [hlast]
        rfl
    | cons l2 rest2 =>
      rw [emitCodeLines, attributedCount_append, attributedCount_append, ih]
      have e0 : attributedCount (if l ≠ [] then [mkText l none] else []) = 0 := by
        by_cases hl : l ≠ []
        · rw [if_pos hl]; rfl
        · rw [if_neg hl]; rfl
      have e1 : attributedCount [nlOp (some (cbAttr lang))] = 1 := rfl
      rw [e0, e1]
      have hlast : lastNonempty (l :: l2 :: rest2) = lastNonempty (l2 :: rest2) :=
        rfl
      rw [hlast]
      simp only [List.length_cons]
      by_cases hln : lastNonempty (l2 :: rest2) = true
      · simp only [if_pos hln]; omega
      · simp only [if_neg hln]; omega

theorem emitCodeLines_emits {lang : Chars} :
    ∀ (ls : List Chars), ∀ l ∈ ls, l ≠ [] →
      mkText l none ∈ emitCodeLines lang ls := by
  intro ls
  induction ls with
  | nil => intro l hl; cases hl
  | cons l0 rest ih =>
    intro l hl hne
    cases rest with
    | nil =>
      simp at hl
      subst hl
      rw [emitCodeLines, if_pos hne]
      exact List.mem_cons_self _ _
    | cons l2 rest2 =>
      rw [emitCodeLines]
      rcases List.mem_cons.mp hl with rfl | hl2
      · rw [if_pos hne]
        exact List.mem_append_left _
          (List.mem_append_left _ (List.mem_cons_self _ _))
      · exact List.mem_append_right _ (ih l hl2 hne)

theorem unattributedCount_append (a b : List Op) :
    unattributedCount (a ++ b) = unattributedCount a + unattributedCount b := by
  rw [unattributedCount, List.filter_append, List.length_append]
  rfl

theorem filter_nonempty_cons (l : List Char) (ls : List (List Char)) :
    List.filter (fun x => decide (x ≠ [])) (l :: ls) =
      if l ≠ [] then l :: List.filter (fun x => decide (x ≠ [])) ls
      else List.filter (fun x => decide (x ≠ [])) ls := by
  rw [List.filter_cons]
  by_cases h : l ≠ []
  · rw [if_pos (by simpa using h), if_pos h]
  · rw [if_neg (by simpa using h), if_neg h]

theorem emitCodeLines_unattr_count {lang : Chars} :
    ∀ ls : List Chars, unattributedCount (emitCodeLines lang ls) =
      (ls.filter (fun l => decide (l ≠ []))).length := by
  intro ls
  induction ls with
  | nil => rfl
  | cons l rest ih =>
    cases rest with
    | nil =>
      rw [emitCodeLines]
      by_cases hl : l ≠ []
      · rw [if_pos hl, List.filter_cons, if_pos (by simpa using hl)]
        rfl
      · rw [if_neg hl, List.filter_cons, if_neg (by simpa using hl)]
        rfl
    | cons l2 rest2 =>
      rw [emitCodeLines, unattributedCount_append, unattributedCount_append,
        filter_nonempty_cons, ih]
      have e2 : unattributedCount [nlOp (some (cbAttr lang))] = 0 := rfl
      by_cases hl : l ≠ []
      · rw [if_pos hl, if_pos hl, e2, List.length_cons]
        have e1 : unattributedCount [mkText l none] = 1 := rfl
        rw [e1]
        omega
      · rw [if_neg hl, if_neg hl, e2]
        have e0 : unattributedCount ([] : List Op) = 0 := rfl
        rw [e0]
        omega

/-- Claim C7, amended: for a fenced code block with non-empty joined
content, each NON-EMPTY collected line IS emitted as a plain
(attribute-less) insert, and the number of plain inserts is exactly the
number of non-empty collected lines (one each, no more); conversely every
emitted operation is such a plain line insert or a `code-block`-tagged
newline, and the number of attributed (newline) operations is the number
of collected lines PLUS one extra trailing newline when the final
collected line is non-empty — not exactly one newline per line; a block
whose collected lines join to the empty string emits nothing. -/
theorem C7_code_block_emission (firstLine : Chars) (rest : List Chars) :
    (joinNl (collectCode rest).1 = [] →
      (handleCodeBlock firstLine rest).1 = []) ∧
    (joinNl (collectCode rest).1 ≠ [] →
      (∀ l ∈ (collectCode rest).1, l ≠ [] →
        mkText l none ∈ (handleCodeBlock firstLine rest).1) ∧
      unattributedCount (handleCodeBlock firstLine rest).1 =
        ((collectCode rest).1.filter (fun l => decide (l ≠ []))).length ∧
      (∀ op ∈ (handleCodeBlock firstLine rest).1,
        (∃ l ∈ (collectCode rest).1, l ≠ [] ∧ op = mkText l none) ∨
        op = nlOp (some (cbAttr (fenceLanguage firstLine)))) ∧
      attributedCount (handleCodeBlock firstLine rest).1 =
        (collectCode rest).1.length +
          (if lastNonempty (collectCode rest).1 = true then 1 else 0)) := by
  constructor
  · intro hj
    simp only [handleCodeBlock]
    rw [if_pos hj]
  · intro hj
    have hcl : (collectCode rest).1 ≠ [] := by
      intro he
      apply hj
      rw [he]
      rfl
    have hops : (handleCodeBlock firstLine rest).1 =
        emitCodeLines (fenceLanguage firstLine) (collectCode rest).1 ++
          [nlOp (some (cbAttr (fenceLanguage firstLine)))] := by
      show (if joinNl (collectCode rest).1 = [] then []
        else emitCodeLines (fenceLanguage firstLine) (collectCode rest).1 ++
          (if (collectCode rest).1 ≠ [] then
            [nlOp (some (cbAttr (fenceLanguage firstLine)))] else [])) = _
      rw [if_neg hj, if_pos hcl]
    refine ⟨?_, ?_, ?_, ?_⟩
    · intro l hl hne
      rw [hops]
      exact List.mem_append_left _ (emitCodeLines_emits _ l hl hne)
    · rw [hops, unattributedCount_append, emitCodeLines_unattr_count]
      have e2 : unattributedCount
          [nlOp (some (cbAttr (fenceLanguage firstLine)))] = 0 := rfl
      rw [e2]
      omega
    · intro op hop
      rw [hops] at hop
      rcases List.mem_append.mp hop with h1 | h1
      · exact emitCodeLines_mem _ op h1
      · simp at h1
        subst h1
        exact Or.inr rfl
    · rw [hops, attributedCount_append, emitCodeLines_count]
      have e1 : attributedCount
          [nlOp (some (cbAttr (fenceLanguage firstLine)))] = 1 := rfl
      rw [e1]
      have hpos : 0 < (collectCode rest).1.length := List.length_pos.mpr hcl
      by_cases hln : lastNonempty (collectCode rest).1 = true
      · simp only [if_pos hln]; omega
      · simp only [if_neg hln]; omega

/-- Claim C7 witness: the block ```` ``` / x / ``` ````, whose single
non-empty collected line `x` is emitted exactly once as a plain insert and
followed by two code-block newlines. -/
theorem C7_witness :
    (∀ l ∈ (collectCode ["x".data, "```".data]).1, l ≠ [] →
      mkText l none ∈ (handleCodeBlock "```".data ["x".data, "```".data]).1) ∧
    unattributedCount (handleCodeBlock "```".data ["x".data, "```".data]).1 =
      ((collectCode ["x".data, "```".data]).1.filter
        (fun l => decide (l ≠ []))).length ∧
    (∀ op ∈ (handleCodeBlock "```".data ["x".data, "```".data]).1,
      (∃ l ∈ (collectCode ["x".data, "```".data]).1, l ≠ [] ∧
        op = mkText l none) ∨
      op = nlOp (some (cbAttr (fenceLanguage "```".data)))) ∧
    attributedCount (handleCodeBlock "```".data ["x".data, "```".data]).1 =
      (collectCode ["x".data, "```".data]).1.length +
        (if lastNonempty (collectCode ["x".data, "```".data]).1 = true
          then 1 else 0) :=
  (C7_code_block_emission "```".data ["x".data, "```".data]).2 (by decide)

end MasonMd
